import Mathlib

/-!
Verification development for the Pitch-Deck-Verifier repository.

Strings from the Python source are modeled as lists of Unicode codepoints
(`List Nat`); `S` converts a Lean string literal to that representation.
The modules embedded here are `src/pdf_parser.py` (document parsing and
company-name resolution), `src/llm_client.py` (JSON completion
post-processing) and `src/web_search.py` (provider fallback, retry and
rate limiting).  Character-class predicates follow Python's `re` module
restricted to ASCII, which is the alphabet all the relevant constants and
heuristics in the source operate on.
-/

namespace PV

/-- Codepoints of a string literal. -/
def S (s : String) : List Nat := s.data.map Char.toNat

/-- Python whitespace (the ASCII part of `\s` / `str.strip()` / `str.split()`):
space, tab, newline, carriage return, vertical tab, form feed. -/
def isWS (n : Nat) : Bool := n == 32 || n == 9 || n == 10 || n == 13 || n == 11 || n == 12

/-- ASCII decimal digit (`\d`). -/
def isDigit (n : Nat) : Bool := 48 ≤ n && n ≤ 57

/-- ASCII uppercase letter (`[A-Z]`). -/
def isUpperAlpha (n : Nat) : Bool := 65 ≤ n && n ≤ 90

/-- ASCII lowercase letter (`[a-z]`). -/
def isLowerAlpha (n : Nat) : Bool := 97 ≤ n && n ≤ 122

/-- Python word character (`\w`, ASCII part): letters, digits, underscore. -/
def isWordChar (n : Nat) : Bool := isDigit n || isUpperAlpha n || isLowerAlpha n || n == 95

/-- The character class `[a-zA-Z0-9&.\-]` used by the proper-noun token regex. -/
def isTokChar (n : Nat) : Bool := isDigit n || isUpperAlpha n || isLowerAlpha n || n == 38 || n == 46 || n == 45

/-- `str.lower` on a codepoint (ASCII). -/
def toLowerN (n : Nat) : Nat := if 65 ≤ n && n ≤ 90 then n + 32 else n

/-- `str.upper` on a codepoint (ASCII). -/
def toUpperN (n : Nat) : Nat := if 97 ≤ n && n ≤ 122 then n - 32 else n

/-- `str.lower` on a string. -/
def mapLower (s : List Nat) : List Nat := s.map toLowerN

/-- `str.upper` on a string. -/
def mapUpper (s : List Nat) : List Nat := s.map toUpperN

/-- Drop leading whitespace (`str.lstrip`). -/
def stripStart (s : List Nat) : List Nat := s.dropWhile isWS

/-- Drop trailing whitespace (`str.rstrip`). -/
def stripEnd (s : List Nat) : List Nat := (s.reverse.dropWhile isWS).reverse

/-- `str.strip()`. -/
def pyStrip (s : List Nat) : List Nat := stripEnd (stripStart s)

/-- Replace every maximal run of characters satisfying `P` by a single space;
the boolean flag records whether we are currently inside such a run.
`collapseRuns isWS false` is `re.sub(r"\s+", " ", s)`. -/
def collapseRuns (P : Nat → Bool) : Bool → List Nat → List Nat
  | _, [] => []
  | inRun, c :: rest =>
    if P c then
      if inRun then collapseRuns P true rest else 32 :: collapseRuns P true rest
    else c :: collapseRuns P false rest

/-- `str.split()` (split on whitespace runs, no empty words); the first
argument accumulates the current word in reverse. -/
def pyWordsAux : List Nat → List Nat → List (List Nat)
  | acc, [] => if acc.isEmpty then [] else [acc.reverse]
  | acc, c :: rest =>
    if isWS c then
      if acc.isEmpty then pyWordsAux [] rest else acc.reverse :: pyWordsAux [] rest
    else pyWordsAux (c :: acc) rest

/-- `str.split()`. -/
def pyWords (s : List Nat) : List (List Nat) := pyWordsAux [] s

/-- `str.split(sep)` for a one-character separator (keeps empty parts); the
accumulator holds the current part in reverse. -/
def splitOnCharAux (sep : Nat) : List Nat → List Nat → List (List Nat)
  | acc, [] => [acc.reverse]
  | acc, c :: rest =>
    if c == sep then acc.reverse :: splitOnCharAux sep [] rest
    else splitOnCharAux sep (c :: acc) rest

/-- `str.split('\n')` (keeps empty lines). -/
def splitLines (s : List Nat) : List (List Nat) := splitOnCharAux 10 [] s

/-- Python's substring test `pat in hay`. -/
def containsSub : List Nat → List Nat → Bool
  | [], pat => pat.isEmpty
  | hay@(_ :: rest), pat => pat.isPrefixOf hay || containsSub rest pat

/-- Case-insensitive prefix test (`re.IGNORECASE` literal matching). -/
def ciPrefixOf (pat s : List Nat) : Bool := (mapLower pat).isPrefixOf (mapLower s)

/-- Wordness of an optional character; out-of-range positions are non-word,
which is how `\b` behaves at the ends of the subject string. -/
def wordB : Option Nat → Bool
  | none => false
  | some n => isWordChar n

/-- `\b`: a word boundary lies between two adjacent positions iff their
wordness differs. -/
def bndB (a b : Option Nat) : Bool := wordB a != wordB b

end PV

namespace PV

/-! ## pdf_parser.py : PitchDeckParser -/

/-- `GENERIC_COVER_PHRASES` from `PitchDeckParser`. -/
def GENERIC_COVER_PHRASES : List (List Nat) :=
  [S (r"FOR BUSINESS"), S (r"INVESTOR DECK"), S (r"PITCH DECK"), S (r"PRESENTATION"),
   S (r"COMPANY OVERVIEW"), S (r"CONFIDENTIAL"), S (r"PRIVATE & CONFIDENTIAL"), S (r"DECK")]

/-- `GENERIC_SUBSTRINGS` from `PitchDeckParser`. -/
def GENERIC_SUBSTRINGS : List (List Nat) :=
  [S (r"for business"), S (r"investor"), S (r"pitch deck"), S (r"presentation"),
   S (r"company overview"), S (r"confidential"), S (r"private"), S (r"do not distribute"),
   S (r"all rights reserved")]

/-- `_is_generic_phrase`: empty strings are generic; otherwise whitespace is
collapsed (`re.sub(r"\s+", " ", s).strip()`), and the result is generic if its
uppercasing is a blocked cover phrase or its lowercasing contains a blocked
substring. -/
def isGenericPhrase (s : List Nat) : Bool :=
  if s.isEmpty then true
  else
    let sClean := pyStrip (collapseRuns isWS false s)
    GENERIC_COVER_PHRASES.contains (mapUpper sClean)
      || GENERIC_SUBSTRINGS.any (fun sub => containsSub (mapLower sClean) sub)

/-- `_is_plausible_company_name`: stripped, non-empty, length 2..60, at most
6 words, not entirely `[\W_]`, not a bare 1-4 digit number. -/
def isPlausibleCompanyName (s0 : List Nat) : Bool :=
  let s := pyStrip s0
  if s.isEmpty then false
  else if s.length < 2 || 60 < s.length then false
  else if 6 < (pyWords s).length then false
  else if s.all (fun c => !isWordChar c || c == 95) then false
  else if s.length ≤ 4 && s.all isDigit then false
  else true

/-- One step of `re.findall(r"\b<needle>\b", hay, re.IGNORECASE)`: does the
needle match at the head of `s` (with `prev` the character just before),
with word boundaries on both sides? -/
def wbMatchAt (pat : List Nat) (prev : Option Nat) (s : List Nat) : Bool :=
  ciPrefixOf pat s && bndB prev s.head?
    && bndB ((s.take pat.length).getLast?) ((s.drop pat.length).head?)

/-- Non-overlapping left-to-right count of word-bounded case-insensitive
occurrences; the fuel is an upper bound on the number of scan steps. -/
def countOccAux (pat : List Nat) : Nat → Option Nat → List Nat → Nat
  | 0, _, _ => 0
  | _, _, [] => 0
  | fuel + 1, prev, c :: rest =>
    if wbMatchAt pat prev (c :: rest) then
      1 + countOccAux pat fuel (((c :: rest).take pat.length).getLast?) ((c :: rest).drop pat.length)
    else countOccAux pat fuel (some c) rest

/-- `_count_occurrences`: zero on empty inputs, otherwise the number of
word-boundary-delimited case-insensitive matches of `needle` in `hay`. -/
def countOccurrences (hay needle : List Nat) : Nat :=
  if hay.isEmpty || needle.isEmpty then 0
  else countOccAux needle hay.length none hay

/-- `_is_valid_company_candidate`: strip, require plausibility, reject
generic phrases, and (when `require_occurrences > 0`) require that many
occurrences in the early-pages text. -/
def isValidCompanyCandidate (candidate early : List Nat) (requireOccurrences : Nat) : Bool :=
  let c := pyStrip candidate
  if !isPlausibleCompanyName c then false
  else if isGenericPhrase c then false
  else if 0 < requireOccurrences then decide (requireOccurrences ≤ countOccurrences early c)
  else true

/-- Second alternative of the cover-page date regex: `\w+\s+\d{4}`
(full match). -/
def dateAlt2 (s : List Nat) : Bool :=
  let w := s.takeWhile isWordChar
  let r1 := s.dropWhile isWordChar
  let sp := r1.takeWhile isWS
  let r2 := r1.dropWhile isWS
  !w.isEmpty && !sp.isEmpty && r2.length == 4 && r2.all isDigit

/-- Third alternative of the cover-page date regex:
`\w+\s+\d{1,2},\s*\d{4}` (full match). -/
def dateAlt3 (s : List Nat) : Bool :=
  let w := s.takeWhile isWordChar
  let r1 := s.dropWhile isWordChar
  let sp := r1.takeWhile isWS
  let r2 := r1.dropWhile isWS
  let d := r2.takeWhile isDigit
  let r3 := r2.drop d.length
  !w.isEmpty && !sp.isEmpty && (d.length == 1 || d.length == 2) &&
    (match r3 with
     | 44 :: r4 =>
       let r5 := r4.dropWhile isWS
       r5.length == 4 && r5.all isDigit
     | _ => false)

/-- `re.fullmatch(r"(\d{4}|\w+\s+\d{4}|\w+\s+\d{1,2},\s*\d{4})", line)`:
the date-like lines skipped by the cover-page heuristic. -/
def isDateLine (s : List Nat) : Bool :=
  (s.length == 4 && s.all isDigit) || dateAlt2 s || dateAlt3 s

/-- Sort key of the cover-page heuristic: `(len(s.split()), len(s))`. -/
def coverKey (s : List Nat) : Nat × Nat := ((pyWords s).length, s.length)

/-- Strict lexicographic comparison of cover keys. -/
def coverKeyLt (a b : Nat × Nat) : Bool := a.1 < b.1 || (a.1 == b.1 && a.2 < b.2)

/-- `_company_name_from_cover_text`: take the first 15 stripped non-empty
lines of page 1, drop lines over 80 characters, generic lines, date-like
lines and lines of more than 8 words, and return (stripped) the survivor
that a stable sort by `(word count, length)` puts first. The fold keeps
the earliest candidate with a strictly smaller key, which is exactly the
head of Python's stable `sorted`. -/
def companyNameFromCoverText (firstPageText : List Nat) : List Nat :=
  if firstPageText.isEmpty then []
  else
    let lines := ((splitLines firstPageText).map pyStrip).filter (fun l => !l.isEmpty)
    if lines.isEmpty then []
    else
      let candidates := (lines.take 15).filter (fun line =>
        !(80 < line.length) && !isGenericPhrase line && !isDateLine line
          && !(8 < (pyWords line).length))
      match candidates with
      | [] => []
      | c :: cs =>
        pyStrip (cs.foldl (fun best x => if coverKeyLt (coverKey x) (coverKey best) then x else best) c)

/-! ### Proper-noun frequency heuristic -/

/-- Backtracking for the trailing `\b` of the token regex
`\b[A-Z][a-zA-Z0-9&.\-]{2,}\b`: given the run of token-class characters
after the initial capital and the character following the run, find the
largest `k` (number of run characters consumed, `k ≥ 2`) such that a word
boundary holds after the `k`-th run character. -/
def findKAux (run : List Nat) (afterHd : Option Nat) : Nat → Option Nat
  | 0 => none
  | k + 1 =>
    if k + 1 < 2 then none
    else
      match run.get? k with
      | some lc =>
        let nxt := match run.get? (k + 1) with
                   | some x => some x
                   | none => afterHd
        if isWordChar lc != wordB nxt then some (k + 1) else findKAux run afterHd k
      | none => findKAux run afterHd k

/-- Scanner for `re.findall(r"\b[A-Z][a-zA-Z0-9&.\-]{2,}\b", text)`:
left-to-right, non-overlapping, greedy with backtracking on the final `\b`.
`prev` is the character before the current position; the fuel bounds the
number of scan steps (each step consumes at least one character). -/
def tokensFuel : Nat → Option Nat → List Nat → List (List Nat)
  | 0, _, _ => []
  | _ + 1, _, [] => []
  | fuel + 1, prev, c :: rest =>
    if !wordB prev && isUpperAlpha c then
      let run := rest.takeWhile isTokChar
      let after := rest.dropWhile isTokChar
      match findKAux run after.head? run.length with
      | some k =>
        let tok := c :: run.take k
        tok :: tokensFuel fuel tok.getLast? (run.drop k ++ after)
      | none => tokensFuel fuel (some c) rest
    else tokensFuel fuel (some c) rest

/-- All proper-noun-ish tokens of a text, in order of occurrence. -/
def findTokens (s : List Nat) : List (List Nat) := tokensFuel s.length none s

/-- Distinct elements in order of first occurrence (the iteration order of a
Python `Counter`); `seen` accumulates elements already emitted. -/
def dedupFirstAux : List (List Nat) → List (List Nat) → List (List Nat)
  | _, [] => []
  | seen, t :: rest =>
    if seen.contains t then dedupFirstAux seen rest
    else t :: dedupFirstAux (t :: seen) rest

/-- `Counter(tokens)` as an association list in first-occurrence order. -/
def counterItems (ts : List (List Nat)) : List (List Nat × Nat) :=
  (dedupFirstAux [] ts).map (fun t => (t, ts.count t))

/-- Stable insertion for a descending sort by count: the new element goes
after all existing elements with a greater-or-equal count. -/
def insDesc (x : List Nat × Nat) : List (List Nat × Nat) → List (List Nat × Nat)
  | [] => [x]
  | y :: ys => if y.2 < x.2 then x :: y :: ys else y :: insDesc x ys

/-- Stable descending sort by count (insertion sort), matching the order of
`Counter.most_common`. -/
def sortDescByCount : List (List Nat × Nat) → List (List Nat × Nat)
  | [] => []
  | x :: xs => insDesc x (sortDescByCount xs)

/-- `Counter.most_common(n)`. -/
def mostCommon (n : Nat) (items : List (List Nat × Nat)) : List (List Nat × Nat) :=
  (sortDescByCount items).take n

/-- The `blacklist` set of `_company_name_from_proper_noun_frequency`
(filler tokens never accepted as the company). -/
def freqBlacklist : List (List Nat) :=
  [S (r"Snaps"), S (r"Snap"), S (r"Stories"), S (r"Story"),
   S (r"Confidential"), S (r"July"), S (r"America"), S (r"Age"), S (r"People"),
   S (r"They"), S (r"Our"),
   S (r"Business"), S (r"Investor"), S (r"Deck"), S (r"Presentation"), S (r"Overview"),
   S (r"SNAP"), S (r"FOR"), S (r"BUSINESS"), S (r"GET"), S (r"KNOW"),
   S (r"HISTORY"), S (r"OUR")]

/-- Generic scanner: does any position of the text satisfy the matcher
(which receives the preceding character and the remaining suffix)? Used to
model `re.search`. -/
def scanAny (f : Option Nat → List Nat → Bool) : Option Nat → List Nat → Bool
  | _, [] => false
  | prev, c :: rest => f prev (c :: rest) || scanAny f (some c) rest

/-- Matcher for `\b<name>\b\s+was\s+created\b` at one position. -/
def matchWasCreatedAt (name : List Nat) (prev : Option Nat) (s : List Nat) : Bool :=
  ciPrefixOf name s && bndB prev s.head?
    && bndB ((s.take name.length).getLast?) ((s.drop name.length).head?)
    && (let r1 := s.drop name.length
        let sp1 := r1.takeWhile isWS
        let r2 := r1.dropWhile isWS
        !sp1.isEmpty && ciPrefixOf (S (r"was")) r2
          && (let r3 := r2.drop 3
              let sp2 := r3.takeWhile isWS
              let r4 := r3.dropWhile isWS
              !sp2.isEmpty && ciPrefixOf (S (r"created")) r4
                && bndB ((r4.take 7).getLast?) ((r4.drop 7).head?)))

/-- Matcher for `\bAt\s+<name>\b` at one position. -/
def matchAtNameAt (name : List Nat) (prev : Option Nat) (s : List Nat) : Bool :=
  ciPrefixOf (S (r"At")) s && bndB prev s.head?
    && (let r1 := s.drop 2
        let sp := r1.takeWhile isWS
        let r2 := r1.dropWhile isWS
        !sp.isEmpty && ciPrefixOf name r2
          && bndB ((r2.take name.length).getLast?) ((r2.drop name.length).head?))

/-- Matcher for `\b<name>\b\s+is\b` at one position. -/
def matchNameIsAt (name : List Nat) (prev : Option Nat) (s : List Nat) : Bool :=
  ciPrefixOf name s && bndB prev s.head?
    && bndB ((s.take name.length).getLast?) ((s.drop name.length).head?)
    && (let r1 := s.drop name.length
        let sp := r1.takeWhile isWS
        let r2 := r1.dropWhile isWS
        !sp.isEmpty && ciPrefixOf (S (r"is")) r2
          && bndB ((r2.take 2).getLast?) ((r2.drop 2).head?))

/-- `pattern_bonus`: +8 for `"<name> was created"`, +5 for `"At <name>"`,
+3 for `"<name> is"`, all case-insensitive regex searches over the
early-pages text. -/
def patternBonus (earlyText name : List Nat) : Int :=
  (if scanAny (matchWasCreatedAt name) none earlyText then 8 else 0)
    + (if scanAny (matchAtNameAt name) none earlyText then 5 else 0)
    + (if scanAny (matchNameIsAt name) none earlyText then 3 else 0)

/-- `hint_bonus`: +10 if the lowercased candidate occurs in the lowercased
filename, +4 if it occurs in the lowercased document title. -/
def hintBonus (filenameLow titleLow name : List Nat) : Int :=
  let low := mapLower name
  (if !low.isEmpty && containsSub filenameLow low then 10 else 0)
    + (if !low.isEmpty && containsSub titleLow low then 4 else 0)

/-- `plural_penalty`: 2 for tokens ending in a lowercase `s`. -/
def pluralPenalty (name : List Nat) : Int :=
  if name.getLast? == some 115 then 2 else 0

/-- The score of one candidate:
`2×frequency + pattern_bonus + hint_bonus − plural_penalty`. -/
def freqScore (earlyText filenameLow titleLow name : List Nat) (freq : Nat) : Int :=
  2 * (freq : Int) + patternBonus earlyText name + hintBonus filenameLow titleLow name
    - pluralPenalty name

/-- The filter applied to each `most_common(30)` entry inside the scoring
loop: not blacklisted, plausible, not generic. -/
def freqSurvives (name : List Nat) : Bool :=
  !freqBlacklist.contains name && isPlausibleCompanyName name && !isGenericPhrase name

/-- The scoring loop of `_company_name_from_proper_noun_frequency`: fold
over the `most_common(30)` entries keeping the strictly best score
(initially `("", -10**9)`). -/
def bestLoop (earlyText filenameLow titleLow : List Nat) :
    List (List Nat × Nat) → List Nat × Int → List Nat × Int
  | [], acc => acc
  | (name, freq) :: rest, acc =>
    if freqSurvives name then
      let sc := freqScore earlyText filenameLow titleLow name freq
      if acc.2 < sc then bestLoop earlyText filenameLow titleLow rest (name, sc)
      else bestLoop earlyText filenameLow titleLow rest acc
    else bestLoop earlyText filenameLow titleLow rest acc

/-- `_company_name_from_proper_noun_frequency`. -/
def companyNameFromProperNounFrequency (earlyText filenameHint titleHint : List Nat) : List Nat :=
  if earlyText.isEmpty then []
  else
    let tokens := findTokens earlyText
    if tokens.isEmpty then []
    else
      let top := mostCommon 30 (counterItems tokens)
      (bestLoop earlyText (mapLower filenameHint) (mapLower titleHint) top
        ([], -(1000000000 : Int))).1

/-! ### Parsing (`PitchDeckParser.parse`, `_clean_text`) -/

/-- `text.replace('\r\n', '\n').replace('\r', '\n')`: every carriage return
becomes a newline, a `\r\n` pair becoming a single newline. -/
def crToLf : List Nat → List Nat
  | [] => []
  | 13 :: 10 :: rest => 10 :: crToLf rest
  | 13 :: rest => 10 :: crToLf rest
  | c :: rest => c :: crToLf rest

/-- The control characters removed by
`re.sub(r'[\x00-\x08\x0b\x0c\x0e-\x1f\x7f-\x9f]', '', text)`. -/
def isCtrlRemoved (n : Nat) : Bool :=
  n ≤ 8 || n == 11 || n == 12 || (14 ≤ n && n ≤ 31) || (127 ≤ n && n ≤ 159)

/-- The class `[ \t\f\v]` collapsed inside each line. -/
def isSpTabFV (n : Nat) : Bool := n == 32 || n == 9 || n == 12 || n == 11

/-- `_clean_text`: normalize line endings, delete control characters,
collapse intra-line space/tab runs, strip each line, drop empty lines,
join with newlines and strip the result. -/
def cleanText (t : List Nat) : List Nat :=
  let t1 := (crToLf t).filter (fun c => !isCtrlRemoved c)
  let lines := (splitLines t1).map (fun ln => pyStrip (collapseRuns isSpTabFV false ln))
  pyStrip (List.intercalate [10] (lines.filter (fun l => !l.isEmpty)))

/-- One page as delivered by `pdfplumber` (already text-extracted):
`tablesResult = none` models `page.extract_tables()` raising (tolerated,
giving an empty table list), `some ts` the cleaned tables. -/
structure RawPage where
  rawText : List Nat
  tablesResult : Option (List (List (List Nat)))
  hasImages : Bool

/-- The outcome of the `PyPDF2` metadata step: successful field extraction,
a document without metadata (`reader.metadata` falsy, leaving `{}`), or an
exception whose message is recorded. -/
inductive MetaResult
  | ok (title author creator creationDate : List Nat)
  | noMetadata
  | errored (msg : List Nat)

/-- The `metadata` dictionary of the parsed deck: the title/author/creator/
creation-date fields, the untouched empty dict, or the
`{'error': str(e)}` marker. -/
inductive MetaDict
  | fields (title author creator creationDate : List Nat)
  | empty
  | errorMarker (msg : List Nat)
deriving DecidableEq

/-- `PageContent`. -/
structure PageContent where
  pageNumber : Nat
  text : List Nat
  tables : List (List (List Nat))
  hasImages : Bool

/-- `ParsedPitchDeck`. -/
structure ParsedPitchDeck where
  filename : List Nat
  totalPages : Nat
  pages : List PageContent
  metadata : MetaDict
  fullText : List Nat

/-- Ingestion failure: the source cannot be opened (`pdfplumber.open`
raises and the exception propagates out of `parse`) — the spec's
`UnreadableDocument`. -/
inductive ParseError
  | unreadableDocument
deriving DecidableEq

/-- Build `PageContent` number `idx + 1` from a raw page. -/
def buildPage (idx : Nat) (rp : RawPage) : PageContent :=
  { pageNumber := idx + 1
    text := cleanText rp.rawText
    tables := rp.tablesResult.getD []
    hasImages := rp.hasImages }

/-- Number the pages consecutively starting at `i + 1`. -/
def numberPages : Nat → List RawPage → List PageContent
  | _, [] => []
  | i, rp :: rest => buildPage i rp :: numberPages (i + 1) rest

/-- `pdf_path.split('/')[-1]`. -/
def lastPathComponent (p : List Nat) : List Nat := (splitOnCharAux 47 [] p).getLastD []

/-- `PitchDeckParser.parse`: metadata extraction failures are caught and
recorded as an error marker, while a failure to open the document
(`opened = none`) propagates; otherwise every page is extracted and
numbered from 1. -/
def parsePitchDeck (path : List Nat) (opened : Option (List RawPage)) (meta : MetaResult) :
    Except ParseError ParsedPitchDeck :=
  match opened with
  | none => .error .unreadableDocument
  | some raws =>
    let md := match meta with
      | .ok t a c d => MetaDict.fields t a c d
      | .noMetadata => MetaDict.empty
      | .errored m => MetaDict.errorMarker m
    let pages := numberPages 0 raws
    .ok { filename := lastPathComponent path
          totalPages := pages.length
          pages := pages
          metadata := md
          fullText := List.intercalate [10, 10] (pages.map PageContent.text) }

/-! ### Company-name resolution (`extract_company_name`) -/

/-- The inputs of `extract_company_name`: the parsed deck's filename, page
texts, metadata title (empty when absent or when metadata is the error
marker, matching `(metadata.get("title") or "")`), and the cover
largest-text guess captured during parsing (empty when absent; its value
depends on `pdfplumber` layout objects and is treated as an oracle here). -/
structure Deck where
  filename : List Nat
  pageTexts : List (List Nat)
  title : List Nat
  nameGuess : List Nat

/-- `_get_early_pages_text`: join the non-empty texts of the first five
pages with newlines. -/
def earlyPagesText (d : Deck) : List Nat :=
  List.intercalate [10] ((d.pageTexts.take 5).filter (fun t => !t.isEmpty))

/-- Stage 1 candidate: the stripped cover largest-text guess. -/
def stageCandidate1 (d : Deck) : List Nat := pyStrip d.nameGuess

/-- Stage 2 candidate: cover-page line heuristic on page 1 (the stage is
skipped when there are no pages, which the empty candidate also models
since it never validates). -/
def stageCandidate2 (d : Deck) : List Nat :=
  match d.pageTexts with
  | [] => []
  | t :: _ => companyNameFromCoverText t

/-- Stage 3 candidate: proper-noun frequency over the early pages with
filename and title hints. -/
def stageCandidate3 (d : Deck) : List Nat :=
  companyNameFromProperNounFrequency (earlyPagesText d) d.filename d.title

/-- Stage 4 candidate: the stripped metadata title. -/
def stageCandidate4 (d : Deck) : List Nat := pyStrip d.title

/-- The lead-in phrases stripped from an LLM answer. -/
def llmNamePrefixes : List (List Nat) :=
  [S (r"the company name is"), S (r"company:"), S (r"name:"), S (r"the company is")]

/-- Post-processing of a successful LLM completion inside
`_extract_company_name_with_llm`: strip, delete quote characters, strip,
then drop the first matching lead-in phrase (checked on the lowercase
string) and strip again. -/
def llmPostProcess (resp : List Nat) : List Nat :=
  let c1 := pyStrip resp
  let c2 := pyStrip (c1.filter (fun c => !(c == 34) && !(c == 39)))
  let low := mapLower c2
  match llmNamePrefixes.find? (fun p => p.isPrefixOf low) with
  | some p => pyStrip (c2.drop p.length)
  | none => c2

/-- `_extract_company_name_with_llm`: `none` models `llm_client.complete`
raising, which the method catches, returning the string
`"Unknown Company"`. -/
def llmExtractName : Option (List Nat) → List Nat
  | none => S (r"Unknown Company")
  | some resp => llmPostProcess resp

/-- Stage 5 candidate: `none` when no LLM client is configured (stage
skipped), otherwise the post-processed answer of the (possibly failing)
completion. -/
def stageCandidate5 (llm : Option (Option (List Nat))) : Option (List Nat) :=
  llm.map llmExtractName

/-- The sentinel returned when the cascade fails. -/
def theUnknownCompany : List Nat := S (r"Unknown Company")

/-- `extract_company_name`: the five-stage cascade; the first candidate
passing `_is_valid_company_candidate` (with its stage's occurrence
requirement) is returned, else the sentinel. -/
def extractCompanyName (d : Deck) (llm : Option (Option (List Nat))) : List Nat :=
  let early := earlyPagesText d
  if isValidCompanyCandidate (stageCandidate1 d) early 2 then stageCandidate1 d
  else if isValidCompanyCandidate (stageCandidate2 d) early 2 then stageCandidate2 d
  else if isValidCompanyCandidate (stageCandidate3 d) early 1 then stageCandidate3 d
  else if isValidCompanyCandidate (stageCandidate4 d) early 0 then stageCandidate4 d
  else
    match stageCandidate5 llm with
    | none => theUnknownCompany
    | some nm => if isValidCompanyCandidate nm early 0 then nm else theUnknownCompany

/-- Does any of the five cascade stages produce a candidate passing the
validation gate (with that stage's occurrence requirement)? -/
def anyStagePasses (d : Deck) (llm : Option (Option (List Nat))) : Bool :=
  let early := earlyPagesText d
  isValidCompanyCandidate (stageCandidate1 d) early 2
    || isValidCompanyCandidate (stageCandidate2 d) early 2
    || isValidCompanyCandidate (stageCandidate3 d) early 1
    || isValidCompanyCandidate (stageCandidate4 d) early 0
    || (match stageCandidate5 llm with
        | none => false
        | some nm => isValidCompanyCandidate nm early 0)

/-- The first cascade candidate passing the validation gate, if any. -/
def firstPassingCandidate (d : Deck) (llm : Option (Option (List Nat))) : Option (List Nat) :=
  let early := earlyPagesText d
  if isValidCompanyCandidate (stageCandidate1 d) early 2 then some (stageCandidate1 d)
  else if isValidCompanyCandidate (stageCandidate2 d) early 2 then some (stageCandidate2 d)
  else if isValidCompanyCandidate (stageCandidate3 d) early 1 then some (stageCandidate3 d)
  else if isValidCompanyCandidate (stageCandidate4 d) early 0 then some (stageCandidate4 d)
  else
    match stageCandidate5 llm with
    | none => none
    | some nm => if isValidCompanyCandidate nm early 0 then some nm else none

/-! ## llm_client.py : `complete_with_json`

JSON values and a parser modeling `json.loads` on the sublanguage used by
the pipeline: objects, arrays, double-quoted strings without escape
sequences, integer numbers, booleans, null. -/

/-- JSON values. -/
inductive JVal
  | obj (fields : List (List Nat × JVal))
  | arr (elems : List JVal)
  | str (s : List Nat)
  | num (n : Int)
  | bool (b : Bool)
  | null

/-- JSON whitespace. -/
def isJsonWS (n : Nat) : Bool := n == 32 || n == 9 || n == 10 || n == 13

/-- Skip JSON whitespace. -/
def skipJsonWS (s : List Nat) : List Nat := s.dropWhile isJsonWS

/-- Parse the remainder of a string literal (after the opening quote); no
escape sequences. -/
def parseJStr : List Nat → Option (List Nat × List Nat)
  | [] => none
  | 34 :: rest => some ([], rest)
  | 92 :: _ => none
  | c :: rest =>
    match parseJStr rest with
    | some (s, r) => some (c :: s, r)
    | none => none

/-- Numeric value of a digit list. -/
def natOfDigits (ds : List Nat) : Nat := ds.foldl (fun a c => a * 10 + (c - 48)) 0

mutual

/-- Parse one JSON value; the fuel bounds the nesting/recursion depth. -/
def parseJVal : Nat → List Nat → Option (JVal × List Nat)
  | 0, _ => none
  | fuel + 1, s0 =>
    match skipJsonWS s0 with
    | [] => none
    | 123 :: rest => parseObj fuel rest
    | 91 :: rest => parseArr fuel rest
    | 34 :: rest =>
      match parseJStr rest with
      | some (str, r) => some (JVal.str str, r)
      | none => none
    | 116 :: rest =>
      if (S (r"rue")).isPrefixOf rest then some (JVal.bool true, rest.drop 3) else none
    | 102 :: rest =>
      if (S (r"alse")).isPrefixOf rest then some (JVal.bool false, rest.drop 4) else none
    | 110 :: rest =>
      if (S (r"ull")).isPrefixOf rest then some (JVal.null, rest.drop 3) else none
    | 45 :: rest =>
      let d := rest.takeWhile isDigit
      if d.isEmpty then none
      else some (JVal.num (-(natOfDigits d : Int)), rest.drop d.length)
    | c :: rest =>
      if isDigit c then
        let d := (c :: rest).takeWhile isDigit
        some (JVal.num (natOfDigits d : Int), (c :: rest).drop d.length)
      else none

/-- Parse an object body (after `{`). -/
def parseObj : Nat → List Nat → Option (JVal × List Nat)
  | 0, _ => none
  | fuel + 1, s =>
    match skipJsonWS s with
    | 125 :: rest => some (JVal.obj [], rest)
    | _ => parseMembers fuel s []

/-- Parse the members of a non-empty object. -/
def parseMembers : Nat → List Nat → List (List Nat × JVal) → Option (JVal × List Nat)
  | 0, _, _ => none
  | fuel + 1, s, acc =>
    match skipJsonWS s with
    | 34 :: rest =>
      match parseJStr rest with
      | none => none
      | some (key, r1) =>
        match skipJsonWS r1 with
        | 58 :: r2 =>
          match parseJVal fuel r2 with
          | none => none
          | some (v, r3) =>
            match skipJsonWS r3 with
            | 44 :: r4 => parseMembers fuel r4 (acc ++ [(key, v)])
            | 125 :: r4 => some (JVal.obj (acc ++ [(key, v)]), r4)
            | _ => none
        | _ => none
    | _ => none

/-- Parse an array body (after `[`). -/
def parseArr : Nat → List Nat → Option (JVal × List Nat)
  | 0, _ => none
  | fuel + 1, s =>
    match skipJsonWS s with
    | 93 :: rest => some (JVal.arr [], rest)
    | _ => parseElems fuel s []

/-- Parse the elements of a non-empty array. -/
def parseElems : Nat → List Nat → List JVal → Option (JVal × List Nat)
  | 0, _, _ => none
  | fuel + 1, s, acc =>
    match parseJVal fuel s with
    | none => none
    | some (v, r) =>
      match skipJsonWS r with
      | 44 :: r2 => parseElems fuel r2 (acc ++ [v])
      | 93 :: r2 => some (JVal.arr (acc ++ [v]), r2)
      | _ => none

end

/-- `json.loads`: parse one value and require only whitespace to follow. -/
def parseJson (s : List Nat) : Option JVal :=
  match parseJVal (s.length + 1) s with
  | some (v, rest) => if (skipJsonWS rest).isEmpty then some v else none
  | none => none

/-- The triple-backtick fence marker. -/
def fenceMark : List Nat := S (r"```")

/-- The brace-window step of `complete_with_json`:
`start = response.find('{')`, `end = response.rfind('}') + 1`, and slice
`response[start:end]` when `start != -1 and end > start`. -/
def braceSlice (res : List Nat) : List Nat :=
  match List.findIdx? (fun c => c == 123) res, List.findIdx? (fun c => c == 125) res.reverse with
  | some s, some k =>
    let e := res.length - 1 - k
    if s < e + 1 then (res.drop s).take (e + 1 - s) else res
  | _, _ => res

/-- The response post-processing of `complete_with_json`: strip; if the
response starts with a fence, drop its first line and also its last line
when that starts with a fence; then apply the brace window. -/
def cleanJsonResponse (resp : List Nat) : List Nat :=
  let r := pyStrip resp
  let r2 :=
    if fenceMark.isPrefixOf r then
      let lines := splitLines r
      if fenceMark.isPrefixOf (lines.getLastD []) then
        List.intercalate [10] ((lines.drop 1).dropLast)
      else List.intercalate [10] (lines.drop 1)
    else r
  braceSlice r2

/-- Modelled from the spec: the recovery procedure described for
`complete_json` — "strip a leading/trailing fenced-code block if present,
then locate the substring between the first `{` and the last `}`".  The
fence stripping is read as: drop the leading fence line; if the remaining
text ends in a fence line, drop that too. -/
def specRecoverJson (resp : List Nat) : List Nat :=
  let r := pyStrip resp
  let r2 :=
    if fenceMark.isPrefixOf r then
      let body := (splitLines r).drop 1
      if !body.isEmpty && fenceMark.isPrefixOf (body.getLastD []) then
        List.intercalate [10] body.dropLast
      else List.intercalate [10] body
    else r
  braceSlice r2

/-- What a `complete_with_json` call surfaces to its caller:
`ok` a parsed value; `jsonDecodeError doc` the bare `json.JSONDecodeError`
raised by `json.loads` on document `doc` (the code has no handler around
it); `malformedStructuredOutput` the wrapper error postulated by the spec,
carrying the offending raw text — present in this type only so the spec's
claim is statable. -/
inductive JsonOutcome
  | ok (v : JVal)
  | jsonDecodeError (doc : List Nat)
  | malformedStructuredOutput (raw : List Nat)

/-- Discriminator for the spec's postulated wrapper error. -/
def isMalformedOutcome : JsonOutcome → Bool
  | .malformedStructuredOutput _ => true
  | _ => false

/-- Discriminator for the bare parser error. -/
def isDecodeErrorOutcome : JsonOutcome → Bool
  | .jsonDecodeError _ => true
  | _ => false

/-- `complete_with_json`, given the raw model response: post-process, then
`json.loads` — whose failure propagates as the bare decode error. -/
def completeWithJson (resp : List Nat) : JsonOutcome :=
  let c := cleanJsonResponse resp
  match parseJson c with
  | some v => .ok v
  | none => .jsonDecodeError c

/-! ## web_search.py : WebSearchClient

Timed trace model of `_search_duckduckgo` and of the class-level rate
limiter.  Time is an integer count of tenths of a second, so the source's
constants become: minimum inter-call delay 2.5 s = 25, extra retry delay
3.0 s = 30, post-success pause 0.5 s = 5, rate-limit backoff
`(attempt+1) * 5 s` = `(attempt+1) * 50`, connection backoff
`(attempt+1) * 3 s` = `(attempt+1) * 30`.  `time.sleep(x)` advances the
clock by `x`; the rate-limit wait becomes `clock := max clock (last + 25)`,
which is exactly "sleep the deficit if positive". -/

/-- Outcome of one `ddg.text(...)` call, as classified by the handler:
success, an error whose message matches the rate-limit test, one matching
the timeout/connection test, or any other (non-transient) error.  `dur` is
the time the provider call itself takes. -/
inductive DOutcome
  | success (dur : Int)
  | rateLimited (dur : Int)
  | connIssue (dur : Int)
  | fatal (dur : Int)

/-- Duration of an outcome. -/
def DOutcome.dur : DOutcome → Int
  | .success d => d
  | .rateLimited d => d
  | .connIssue d => d
  | .fatal d => d

/-- Is the outcome a non-transient failure? -/
def isFatalOutcome : DOutcome → Bool
  | .fatal _ => true
  | _ => false

/-- The process-wide mutable state: the current clock and the class-level
`_last_ddg_search_time` (0 before any successful search, as in the
source). -/
structure DState where
  clock : Int
  last : Int
deriving DecidableEq

/-- One issued fallback-provider call: its issue time, whether it
succeeded, and whether the client handle was reset (`self._ddg = None`)
after it. -/
structure ARec where
  time : Int
  succ : Bool
  resetAfter : Bool
deriving DecidableEq

/-- `_min_ddg_delay` (2.5 s). -/
def minDdgDelay : Int := 25

/-- The retry loop of `_search_duckduckgo`: `a` is the attempt index, the
fuel is the number of loop iterations left (`retry_count + 1 - a`), and the
oracle gives each attempt's outcome.  Returns the issued-call trace, the
final state, and whether results (rather than `[]`) were returned. -/
def ddgGo (rc : Nat) (oracle : Nat → DOutcome) : Nat → Nat → DState → List ARec × DState × Bool
  | 0, _, st => ([], st, false)
  | fuel + 1, a, st =>
    let c1 : Int := max st.clock (st.last + minDdgDelay)
    let c2 : Int := if 0 < a then c1 + 30 else c1
    match oracle a with
    | .success d =>
      let fin := c2 + d
      ([⟨c2, true, false⟩], ⟨fin + 5, fin⟩, true)
    | .rateLimited d =>
      if a < rc then
        let st1 : DState := ⟨c2 + d + ((a : Int) + 1) * 50, st.last⟩
        let res := ddgGo rc oracle fuel (a + 1) st1
        (⟨c2, false, true⟩ :: res.1, res.2)
      else ([⟨c2, false, false⟩], ⟨c2 + d, st.last⟩, false)
    | .connIssue d =>
      let st1 : DState := ⟨c2 + d + ((a : Int) + 1) * 30, st.last⟩
      if a < rc then
        let res := ddgGo rc oracle fuel (a + 1) st1
        (⟨c2, false, true⟩ :: res.1, res.2)
      else ([⟨c2, false, true⟩], st1, false)
    | .fatal d => ([⟨c2, false, false⟩], ⟨c2 + d, st.last⟩, false)

/-- `_search_duckduckgo(query, retry_count)`. -/
def ddgSearch (rc : Nat) (oracle : Nat → DOutcome) (st : DState) : List ARec × DState × Bool :=
  ddgGo rc oracle (rc + 1) 0 st

/-- A sequence of fallback searches in one process: each entry is the
caller's delay before invoking the search and the outcome oracle for that
invocation; the class-level state threads through.  Returns the flattened
trace of issued provider calls. -/
def runSeq (rc : Nat) : DState → List (Int × (Nat → DOutcome)) → List ARec
  | _, [] => []
  | st, (gap, oracle) :: rest =>
    let st1 : DState := ⟨st.clock + gap, st.last⟩
    let res := ddgSearch rc oracle st1
    res.1 ++ runSeq rc res.2.1 rest

/-- Issue time of the `i`-th recorded call (0 out of range). -/
def recTime (l : List ARec) (i : Nat) : Int := ((l.get? i).getD ⟨0, false, false⟩).time

/-- Success flag of the `i`-th recorded call. -/
def recSucc (l : List ARec) (i : Nat) : Bool := ((l.get? i).getD ⟨0, false, false⟩).succ

/-- Client-reset flag of the `i`-th recorded call. -/
def recReset (l : List ARec) (i : Nat) : Bool := ((l.get? i).getD ⟨0, false, false⟩).resetAfter

/-- Lower bound on the delay inserted after attempt `a` ends before the
next attempt can be issued, by the backoff branch taken. -/
def backoffLB (o : DOutcome) (a : Nat) : Int :=
  match o with
  | .rateLimited d => d + ((a : Int) + 1) * 50
  | .connIssue d => d + ((a : Int) + 1) * 30
  | .success _ => 0
  | .fatal _ => 0

/-- All provider-call durations of an oracle are non-negative. -/
def oracleNonneg (oracle : Nat → DOutcome) : Prop := ∀ n, 0 ≤ (oracle n).dur

/-- Well-formed run list: non-negative caller gaps and durations. -/
def runsWF (runs : List (Int × (Nat → DOutcome))) : Prop :=
  ∀ r ∈ runs, 0 ≤ r.1 ∧ oracleNonneg r.2

/-- The property claimed by the spec for the fallback provider: all issued
calls are pairwise at least the minimum interval apart. -/
def minGapRespected (tr : List ARec) : Prop :=
  List.Pairwise (fun a b => a.time + minDdgDelay ≤ b.time) tr

/-! ### Provider fallback (`WebSearchClient.search`) -/

/-- Search providers. -/
inductive Provider
  | tavily
  | ddg
deriving DecidableEq

/-- One `search()` call: given whether a Tavily key is configured, the
current `_use_tavily` flag, and whether the Tavily request would raise,
return the providers attempted in order and the new `_use_tavily`. -/
def searchOnce (keySet useTavily tavilyFails : Bool) : List Provider × Bool :=
  if useTavily && keySet then
    if tavilyFails then ([.tavily, .ddg], false) else ([.tavily], true)
  else ([.ddg], useTavily)

/-- A session of `search()` calls on one client (the `fs` list gives, per
call, whether a Tavily attempt would fail); returns each call's attempted
providers. -/
def searchSession (keySet : Bool) : Bool → List Bool → List (List Provider)
  | _, [] => []
  | ut, f :: fs =>
    let r := searchOnce keySet ut f
    r.1 :: searchSession keySet r.2 fs

/-- Providers attempted by the `i`-th call of a session ([] out of range). -/
def sessionAt (tr : List (List Provider)) (i : Nat) : List Provider := (tr.get? i).getD []

end PV


namespace PV

/-! ## Named properties and concrete instances used by the claims -/

/-- The `most_common(30)` list a frequency-heuristic run considers. -/
def freqConsidered (early : List Nat) : List (List Nat × Nat) :=
  mostCommon 30 (counterItems (findTokens early))

/-- The frequency heuristic returns a highest-scoring survivor of the
considered `most_common(30)` entries (or the empty string). -/
def freqHeuristicOptimalOn (early fn tl : List Nat) : Prop :=
  companyNameFromProperNounFrequency early fn tl = []
  ∨ ∃ freq,
      (companyNameFromProperNounFrequency early fn tl, freq) ∈ freqConsidered early
      ∧ freqSurvives (companyNameFromProperNounFrequency early fn tl) = true
      ∧ ∀ p ∈ freqConsidered early, freqSurvives p.1 = true →
          freqScore early (mapLower fn) (mapLower tl) p.1 p.2
            ≤ freqScore early (mapLower fn) (mapLower tl)
                (companyNameFromProperNounFrequency early fn tl) freq

/-- The frequency heuristic never selects a token outside the top 30 by raw
occurrence count: its result (when non-empty) is a counted token such that
at most 29 distinct tokens have a strictly greater count. -/
def freqTop30Property (early fn tl : List Nat) : Prop :=
  companyNameFromProperNounFrequency early fn tl = []
  ∨ ∃ freq,
      (companyNameFromProperNounFrequency early fn tl, freq) ∈ counterItems (findTokens early)
      ∧ ((counterItems (findTokens early)).filter (fun p => freq < p.2)).length ≤ 29

/-- The text of the spec's worked example: `"Acme was created in 2015"`
three times. -/
def acmeText : List Nat :=
  S (r"Acme was created in 2015") ++ [10] ++ S (r"Acme was created in 2015")
    ++ [10] ++ S (r"Acme was created in 2015")

/-- A document with no pages, no metadata and no hints. -/
def emptyDeck : Deck := ⟨[], [], [], []⟩

/-- A fenced model response containing `{"a":1}`. -/
def ex1resp : List Nat := S (r"```json") ++ [10, 123, 34, 97, 34, 58, 49, 125, 10] ++ S (r"```")

/-- A model response with leading prose before `{"a":1}`. -/
def ex2resp : List Nat := S (r"Here is the result: ") ++ [123, 34, 97, 34, 58, 49, 125]

/-- The JSON value `{"a":1}`. -/
def exVal : JVal := JVal.obj [([97], JVal.num 1)]

/-- An oracle whose every attempt fails non-transiently and instantly. -/
def fatalOracle : Nat → DOutcome := fun _ => DOutcome.fatal 0

/-- An oracle whose every attempt succeeds instantly. -/
def okOracle : Nat → DOutcome := fun _ => DOutcome.success 0

/-- An oracle that is rate-limited on attempt 0 and succeeds afterwards. -/
def rlThenOkOracle : Nat → DOutcome :=
  fun a => if a == 0 then DOutcome.rateLimited 0 else DOutcome.success 0

/-- Two back-to-back searches whose single attempts both fail
non-transiently, starting at clock 100 (tenths of a second). -/
def c2Runs : List (Int × (Nat → DOutcome)) := [(0, fatalOracle), (0, fatalOracle)]

/-- Two back-to-back searches that both succeed. -/
def c2OkRuns : List (Int × (Nat → DOutcome)) := [(0, okOracle), (0, okOracle)]

end PV

namespace PV

/-! ## Whitespace-collapsing infrastructure for claim C6 -/

/-- State of `collapseRuns` after processing a list: are we inside a run of
characters satisfying `P`? -/
def endsInRun (P : Nat → Bool) : Bool → List Nat → Bool
  | b, [] => b
  | _, c :: rest => endsInRun P (P c) rest

/-- Canonically-spaced pattern check, starting from state `b` (whether the
previous character was whitespace): every whitespace character must be a
lone space not preceded by whitespace.  With `b = true` the first character
is additionally forced to be non-whitespace. -/
def canonChk : Bool → List Nat → Bool
  | _, [] => true
  | b, c :: rest =>
    if isWS c then (c == 32) && !b && canonChk true rest
    else canonChk false rest

/-- A pattern that whitespace collapsing and stripping leave intact
wherever it occurs as a substring: non-empty, does not start or end with
whitespace, and every internal whitespace character is a lone space. -/
def canonicalPat (p : List Nat) : Bool :=
  !p.isEmpty && canonChk true p
    && (match p.getLast? with
        | some c => !isWS c
        | none => false)

end PV

namespace PV

/-! # Theorems -/

/-! ## Helper lemmas -/

theorem numberPages_map_text (i : Nat) (raws : List RawPage) :
    (numberPages i raws).map PageContent.text = raws.map (fun rp => cleanText rp.rawText) := by
  induction raws generalizing i with
  | nil => rfl
  | cons rp rest ih => simp [numberPages, buildPage, ih]

theorem numberPages_map_num (i : Nat) (raws : List RawPage) :
    (numberPages i raws).map PageContent.pageNumber
      = (List.range raws.length).map (· + (i + 1)) := by
  induction raws generalizing i with
  | nil => rfl
  | cons rp rest ih =>
    simp only [numberPages, buildPage, List.map_cons, List.length_cons,
      List.range_succ_eq_map, List.map_map, ih]
    refine congrArg₂ _ (by omega) ?_
    apply List.map_congr_left
    intro a _
    simp [Function.comp, Nat.succ_eq_add_one]
    omega

theorem searchSession_all_ddg (keySet : Bool) (fs : List Bool) :
    searchSession keySet false fs = fs.map (fun _ => [Provider.ddg]) := by
  induction fs with
  | nil => rfl
  | cons f fs ih => simp [searchSession, searchOnce, ih]

theorem sessionAt_cons_succ (x : List Provider) (tr : List (List Provider)) (k : Nat) :
    sessionAt (x :: tr) (k + 1) = sessionAt tr k := rfl

theorem splitOnCharAux_ne_nil (sep : Nat) (acc s : List Nat) : splitOnCharAux sep acc s ≠ [] := by
  induction s generalizing acc with
  | nil => simp [splitOnCharAux]
  | cons c rest ih =>
    simp only [splitOnCharAux]
    split
    · simp
    · exact ih _

theorem splitLines_ne_nil (s : List Nat) : splitLines s ≠ [] := splitOnCharAux_ne_nil 10 [] s

theorem getLastD_cons_cons (a b : List Nat) (t : List (List Nat)) :
    (a :: b :: t).getLastD [] = (b :: t).getLastD [] := by
  simp [List.getLastD_eq_getLast?, List.getLast?_cons_cons]

theorem specRecoverJson_eq_cleanJsonResponse (resp : List Nat) :
    specRecoverJson resp = cleanJsonResponse resp := by
  unfold specRecoverJson cleanJsonResponse
  by_cases hf : fenceMark.isPrefixOf (pyStrip resp)
  · simp only [hf, if_true]
    cases hls : splitLines (pyStrip resp) with
    | nil => exact absurd hls (splitLines_ne_nil _)
    | cons x t =>
      cases t with
      | nil =>
        cases hc : fenceMark.isPrefixOf ([x].getLastD []) <;> simp [hc]
      | cons y t2 =>
        rw [getLastD_cons_cons]
        simp
  · simp [hf]

end PV

namespace PV

/-! ## Claim C9 -/

/-- Claim C9: ingestion fails with `UnreadableDocument` when the source
cannot be opened; when only the metadata step fails, `parse` records the
error marker as (partial) metadata and still extracts and numbers every
page instead of aborting. -/
theorem C9_ingestion_failure_modes (path : List Nat) (meta : MetaResult)
    (raws : List RawPage) (msg : List Nat) :
    parsePitchDeck path none meta = Except.error ParseError.unreadableDocument
    ∧ ∃ d : ParsedPitchDeck,
        parsePitchDeck path (some raws) (MetaResult.errored msg) = Except.ok d
        ∧ d.metadata = MetaDict.errorMarker msg
        ∧ d.totalPages = raws.length
        ∧ d.pages.map PageContent.text = raws.map (fun rp => cleanText rp.rawText)
        ∧ d.pages.map PageContent.pageNumber = (List.range raws.length).map (· + 1) := by
  refine ⟨rfl, ⟨_, rfl, rfl, ?_, numberPages_map_text 0 raws, by simpa using numberPages_map_num 0 raws⟩⟩
  have h := congrArg List.length (numberPages_map_text 0 raws)
  simpa using h

/-! ## Claim C4 -/

/-- Claim C4: once one Tavily search raises, no later `search()` call in
the session attempts Tavily again — every subsequent call goes directly to
the DuckDuckGo fallback. `fs` records, call by call, whether a Tavily
request would raise; membership of `tavily` in the `i`-th attempted
provider list says the primary was actually attempted there. -/
theorem C4_sticky_primary_disable (keySet ut : Bool) (fs : List Bool) (i j : Nat)
    (hij : i < j) (hj : j < fs.length)
    (htav : Provider.tavily ∈ sessionAt (searchSession keySet ut fs) i)
    (hfail : fs.get? i = some true) :
    sessionAt (searchSession keySet ut fs) j = [Provider.ddg] := by
  induction fs generalizing ut i j with
  | nil => simp at hj
  | cons f fs ih =>
    cases i with
    | zero =>
      have hft : f = true := by simpa using hfail
      subst hft
      by_cases hu : (ut && keySet) = true
      · have hsess : searchSession keySet ut (true :: fs)
            = [Provider.tavily, Provider.ddg] :: searchSession keySet false fs := by
          simp [searchSession, searchOnce, hu]
        obtain ⟨m, rfl⟩ : ∃ m, j = m + 1 := ⟨j - 1, by omega⟩
        rw [hsess, sessionAt_cons_succ, searchSession_all_ddg]
        have hm : m < fs.length := by simpa using hj
        simp [sessionAt, List.getElem?_replicate, hm]
      · exfalso
        have hsess : searchSession keySet ut (true :: fs)
            = [Provider.ddg] :: searchSession keySet ut fs := by
          simp only [searchSession, searchOnce]
          rw [if_neg hu]
        rw [hsess] at htav
        simp [sessionAt] at htav
    | succ k =>
      obtain ⟨m, rfl⟩ : ∃ m, j = m + 1 := ⟨j - 1, by omega⟩
      have hsess : searchSession keySet ut (f :: fs)
          = (searchOnce keySet ut f).1 :: searchSession keySet (searchOnce keySet ut f).2 fs := rfl
      rw [hsess] at htav ⊢
      rw [sessionAt_cons_succ] at htav ⊢
      exact ih _ k m (by omega) (by simpa using hj) htav (by simpa using hfail)

/-! ## Claim C5 (corrected) -/

/-- Counterexample to claim C5 as stated: on a response whose
post-processed form fails to parse, `complete_with_json` does NOT surface
a `MalformedStructuredOutput`-style wrapper naming the raw text — the bare
`json.loads` decode error propagates. -/
theorem C5_counterexample :
    completeWithJson (S (r"hello")) = JsonOutcome.jsonDecodeError (S (r"hello"))
    ∧ isMalformedOutcome (completeWithJson (S (r"hello"))) = false :=
  ⟨rfl, rfl⟩

/-- Claim C5 (amended): whenever the post-processed response fails to
parse, the call propagates the bare JSON decode error (on the
post-processed document); no wrapper error naming the raw text exists in
the code. -/
theorem C5_bare_decode_error (resp : List Nat)
    (h : parseJson (cleanJsonResponse resp) = none) :
    completeWithJson resp = JsonOutcome.jsonDecodeError (cleanJsonResponse resp) := by
  simp only [completeWithJson, h]

/-- Witness for C5's amended theorem at a concrete failing response. -/
theorem C5_bare_decode_error_witness :
    completeWithJson (S (r"no json here")) = JsonOutcome.jsonDecodeError (cleanJsonResponse (S (r"no json here"))) :=
  C5_bare_decode_error (S (r"no json here")) rfl

/-! ## Claim C3 -/

/-- Claim C3: whenever a JSON object can be recovered from the raw
response by the spec's procedure (strip one surrounding fence, then take
the first-`{`-to-last-`}` window), `complete_json` returns exactly that
parsed object; in particular it extracts `{"a":1}` from a fenced response
and from a response with leading prose. -/
theorem C3_complete_json_recovery :
    (∀ (resp : List Nat) (v : JVal),
        parseJson (specRecoverJson resp) = some v → completeWithJson resp = JsonOutcome.ok v)
    ∧ completeWithJson ex1resp = JsonOutcome.ok exVal
    ∧ completeWithJson ex2resp = JsonOutcome.ok exVal := by
  refine ⟨?_, rfl, rfl⟩
  intro resp v h
  rw [specRecoverJson_eq_cleanJsonResponse] at h
  simp only [completeWithJson, h]

/-- Witness for C3 at the fenced concrete response. -/
theorem C3_complete_json_recovery_witness :
    completeWithJson ex1resp = JsonOutcome.ok exVal :=
  C3_complete_json_recovery.1 ex1resp exVal rfl

end PV

namespace PV

/-- Witness for C4 at a concrete session: Tavily fails on call 0, so call 1
goes straight to the fallback. -/
theorem C4_sticky_primary_disable_witness :
    sessionAt (searchSession true true [true, false]) 1 = [Provider.ddg] :=
  C4_sticky_primary_disable true true [true, false] 0 1 (by decide) (by decide)
    (by decide) (by decide)

/-! ## Claim C1 (corrected) -/

theorem valid_nil_false (early : List Nat) (k : Nat) :
    isValidCompanyCandidate [] early k = false := rfl

theorem ne_nil_of_valid (c early : List Nat) (k : Nat)
    (h : isValidCompanyCandidate c early k = true) : c ≠ [] := by
  intro hc
  subst hc
  rw [valid_nil_false] at h
  exact Bool.false_ne_true h

theorem not_generic_of_valid (c early : List Nat) (k : Nat)
    (h : isValidCompanyCandidate c early k = true) :
    isGenericPhrase (pyStrip c) = false := by
  cases hg : isGenericPhrase (pyStrip c) with
  | false => rfl
  | true =>
    exfalso
    simp only [isValidCompanyCandidate, hg] at h
    rcases h2 : isPlausibleCompanyName (pyStrip c) with _ | _ <;> simp [h2] at h

theorem extract_eq_firstPassing (d : Deck) (llm : Option (Option (List Nat))) :
    extractCompanyName d llm = (firstPassingCandidate d llm).getD theUnknownCompany := by
  simp only [extractCompanyName, firstPassingCandidate]
  by_cases h1 : isValidCompanyCandidate (stageCandidate1 d) (earlyPagesText d) 2 = true
  · simp [h1]
  · replace h1 : isValidCompanyCandidate (stageCandidate1 d) (earlyPagesText d) 2 = false := by
      simpa using h1
    simp only [h1, Bool.false_eq_true, if_false]
    by_cases h2 : isValidCompanyCandidate (stageCandidate2 d) (earlyPagesText d) 2 = true
    · simp [h2]
    · replace h2 : isValidCompanyCandidate (stageCandidate2 d) (earlyPagesText d) 2 = false := by
        simpa using h2
      simp only [h2, Bool.false_eq_true, if_false]
      by_cases h3 : isValidCompanyCandidate (stageCandidate3 d) (earlyPagesText d) 1 = true
      · simp [h3]
      · replace h3 : isValidCompanyCandidate (stageCandidate3 d) (earlyPagesText d) 1 = false := by
          simpa using h3
        simp only [h3, Bool.false_eq_true, if_false]
        by_cases h4 : isValidCompanyCandidate (stageCandidate4 d) (earlyPagesText d) 0 = true
        · simp [h4]
        · replace h4 : isValidCompanyCandidate (stageCandidate4 d) (earlyPagesText d) 0 = false := by
            simpa using h4
          simp only [h4, Bool.false_eq_true, if_false]
          cases hl : stageCandidate5 llm with
          | none => rfl
          | some nm =>
            by_cases h5 : isValidCompanyCandidate nm (earlyPagesText d) 0 = true
            · simp [h5]
            · replace h5 : isValidCompanyCandidate nm (earlyPagesText d) 0 = false := by
                simpa using h5
              simp [h5]

theorem firstPassing_valid (d : Deck) (llm : Option (Option (List Nat))) (c : List Nat)
    (h : firstPassingCandidate d llm = some c) :
    ∃ k, isValidCompanyCandidate c (earlyPagesText d) k = true := by
  simp only [firstPassingCandidate] at h
  by_cases h1 : isValidCompanyCandidate (stageCandidate1 d) (earlyPagesText d) 2 = true
  · refine ⟨2, ?_⟩
    simp only [h1, if_true] at h
    obtain rfl : stageCandidate1 d = c := by simpa using h
    exact h1
  · replace h1 : isValidCompanyCandidate (stageCandidate1 d) (earlyPagesText d) 2 = false := by
      simpa using h1
    simp only [h1, Bool.false_eq_true, if_false] at h
    by_cases h2 : isValidCompanyCandidate (stageCandidate2 d) (earlyPagesText d) 2 = true
    · refine ⟨2, ?_⟩
      simp only [h2, if_true] at h
      obtain rfl : stageCandidate2 d = c := by simpa using h
      exact h2
    · replace h2 : isValidCompanyCandidate (stageCandidate2 d) (earlyPagesText d) 2 = false := by
        simpa using h2
      simp only [h2, Bool.false_eq_true, if_false] at h
      by_cases h3 : isValidCompanyCandidate (stageCandidate3 d) (earlyPagesText d) 1 = true
      · refine ⟨1, ?_⟩
        simp only [h3, if_true] at h
        obtain rfl : stageCandidate3 d = c := by simpa using h
        exact h3
      · replace h3 : isValidCompanyCandidate (stageCandidate3 d) (earlyPagesText d) 1 = false := by
          simpa using h3
        simp only [h3, Bool.false_eq_true, if_false] at h
        by_cases h4 : isValidCompanyCandidate (stageCandidate4 d) (earlyPagesText d) 0 = true
        · refine ⟨0, ?_⟩
          simp only [h4, if_true] at h
          obtain rfl : stageCandidate4 d = c := by simpa using h
          exact h4
        · replace h4 : isValidCompanyCandidate (stageCandidate4 d) (earlyPagesText d) 0 = false := by
            simpa using h4
          simp only [h4, Bool.false_eq_true, if_false] at h
          cases hl : stageCandidate5 llm with
          | none => rw [hl] at h; exact absurd h (by simp)
          | some nm =>
            rw [hl] at h
            replace h : (if isValidCompanyCandidate nm (earlyPagesText d) 0 = true
                then some nm else none) = some c := h
            refine ⟨0, ?_⟩
            by_cases h5 : isValidCompanyCandidate nm (earlyPagesText d) 0 = true
            · simp only [h5, if_true] at h
              obtain rfl : nm = c := by simpa using h
              exact h5
            · replace h5 : isValidCompanyCandidate nm (earlyPagesText d) 0 = false := by
                simpa using h5
              rw [h5] at h
              simp at h

theorem extract_ne_nil (d : Deck) (llm : Option (Option (List Nat))) :
    extractCompanyName d llm ≠ [] := by
  rw [extract_eq_firstPassing]
  cases hfp : firstPassingCandidate d llm with
  | none => simp [theUnknownCompany, S]
  | some c =>
    simp only [Option.getD_some]
    obtain ⟨k, hk⟩ := firstPassing_valid d llm c hfp
    exact ne_nil_of_valid c _ k hk

theorem extract_sentinel_of_no_pass (d : Deck) (llm : Option (Option (List Nat)))
    (h : anyStagePasses d llm = false) :
    extractCompanyName d llm = theUnknownCompany := by
  simp only [anyStagePasses, Bool.or_eq_false_iff] at h
  obtain ⟨⟨⟨⟨h1, h2⟩, h3⟩, h4⟩, h5⟩ := h
  simp only [extractCompanyName, h1, h2, h3, h4, Bool.false_eq_true, if_false]
  cases hl : stageCandidate5 llm with
  | none => rfl
  | some nm =>
    rw [hl] at h5
    replace h5 : isValidCompanyCandidate nm (earlyPagesText d) 0 = false := h5
    simp [h5]

/-- Counterexample to claim C1 as stated: on the empty document with an
LLM stage whose completion raises, the function returns the string
`"Unknown Company"`, yet a cascade candidate (the stage-5 recovery value,
which is itself `"Unknown Company"`) passes the validation gate — so
"returns the sentinel exactly when no candidate passes the gate" is false. -/
theorem C1_counterexample :
    ¬ (extractCompanyName emptyDeck (some none) = theUnknownCompany
        ↔ anyStagePasses emptyDeck (some none) = false) := by
  decide

/-- Claim C1 (amended): company-name resolution is total and never returns
the empty string; it returns the first cascade candidate passing the
validation gate, and the sentinel `"Unknown Company"` whenever no stage
passes — but a returned `"Unknown Company"` does not imply that every
stage failed, since a stage candidate may itself be that string (e.g. the
LLM stage after an internal failure). -/
theorem C1_resolution_total (d : Deck) (llm : Option (Option (List Nat))) :
    extractCompanyName d llm ≠ []
    ∧ (anyStagePasses d llm = false → extractCompanyName d llm = theUnknownCompany)
    ∧ extractCompanyName d llm = (firstPassingCandidate d llm).getD theUnknownCompany :=
  ⟨extract_ne_nil d llm, extract_sentinel_of_no_pass d llm, extract_eq_firstPassing d llm⟩

/-- Witness for C1's amended theorem on the empty document with no LLM:
no stage passes, and the sentinel is returned. -/
theorem C1_resolution_total_witness :
    extractCompanyName emptyDeck none ≠ []
    ∧ extractCompanyName emptyDeck none = theUnknownCompany :=
  ⟨(C1_resolution_total emptyDeck none).1,
   (C1_resolution_total emptyDeck none).2.1 (by decide)⟩

end PV

namespace PV

/-! ## Claims C7 and C10: the frequency heuristic -/

theorem bestLoop_result (early fn tl : List Nat) (l : List (List Nat × Nat)) (acc : List Nat × Int) :
    (bestLoop early fn tl l acc = acc
      ∨ ∃ p ∈ l, freqSurvives p.1 = true
          ∧ bestLoop early fn tl l acc = (p.1, freqScore early fn tl p.1 p.2))
    ∧ acc.2 ≤ (bestLoop early fn tl l acc).2
    ∧ ∀ p ∈ l, freqSurvives p.1 = true →
        freqScore early fn tl p.1 p.2 ≤ (bestLoop early fn tl l acc).2 := by
  induction l generalizing acc with
  | nil => exact ⟨Or.inl rfl, le_refl _, by simp⟩
  | cons q rest ih =>
    obtain ⟨q1, q2⟩ := q
    by_cases hs : freqSurvives q1 = true
    · by_cases hlt : acc.2 < freqScore early fn tl q1 q2
      · have hred : bestLoop early fn tl ((q1, q2) :: rest) acc
            = bestLoop early fn tl rest (q1, freqScore early fn tl q1 q2) := by
          simp [bestLoop, hs, hlt]
        obtain ⟨ihm, ihle, ihmax⟩ := ih (q1, freqScore early fn tl q1 q2)
        refine ⟨?_, ?_, ?_⟩
        · rcases ihm with he | ⟨p, hp, hps, he⟩
          · exact Or.inr ⟨(q1, q2), by simp, hs, by rw [hred, he]⟩
          · exact Or.inr ⟨p, by simp [hp], hps, by rw [hred, he]⟩
        · rw [hred]; exact le_trans (le_of_lt hlt) ihle
        · intro p hp hps
          rcases List.mem_cons.mp hp with rfl | hp2
          · rw [hred]; exact ihle
          · rw [hred]; exact ihmax p hp2 hps
      · have hred : bestLoop early fn tl ((q1, q2) :: rest) acc
            = bestLoop early fn tl rest acc := by
          simp [bestLoop, hs, hlt]
        obtain ⟨ihm, ihle, ihmax⟩ := ih acc
        refine ⟨?_, by rw [hred]; exact ihle, ?_⟩
        · rcases ihm with he | ⟨p, hp, hps, he⟩
          · exact Or.inl (by rw [hred, he])
          · exact Or.inr ⟨p, by simp [hp], hps, by rw [hred, he]⟩
        · intro p hp hps
          rcases List.mem_cons.mp hp with rfl | hp2
          · rw [hred]
            exact le_trans (not_lt.mp hlt) ihle
          · rw [hred]; exact ihmax p hp2 hps
    · have hs' : freqSurvives q1 = false := by simpa using hs
      have hred : bestLoop early fn tl ((q1, q2) :: rest) acc
          = bestLoop early fn tl rest acc := by
        simp [bestLoop, hs']
      obtain ⟨ihm, ihle, ihmax⟩ := ih acc
      refine ⟨?_, by rw [hred]; exact ihle, ?_⟩
      · rcases ihm with he | ⟨p, hp, hps, he⟩
        · exact Or.inl (by rw [hred, he])
        · exact Or.inr ⟨p, by simp [hp], hps, by rw [hred, he]⟩
      · intro p hp hps
        rcases List.mem_cons.mp hp with rfl | hp2
        · rw [hps] at hs'
          exact absurd hs' (by simp)
        · rw [hred]; exact ihmax p hp2 hps

theorem insDesc_perm (x : List Nat × Nat) (l : List (List Nat × Nat)) :
    List.Perm (insDesc x l) (x :: l) := by
  induction l with
  | nil => exact List.Perm.refl _
  | cons y ys ih =>
    simp only [insDesc]
    split
    · exact List.Perm.refl _
    · exact (ih.cons y).trans (List.Perm.swap x y ys)

theorem sortDesc_perm (l : List (List Nat × Nat)) :
    List.Perm (sortDescByCount l) l := by
  induction l with
  | nil => exact List.Perm.refl _
  | cons x xs ih => exact (insDesc_perm x (sortDescByCount xs)).trans (ih.cons x)

theorem insDesc_pairwise (x : List Nat × Nat) (l : List (List Nat × Nat))
    (h : List.Pairwise (fun a b => b.2 ≤ a.2) l) :
    List.Pairwise (fun a b => b.2 ≤ a.2) (insDesc x l) := by
  induction l with
  | nil => simp [insDesc]
  | cons y ys ih =>
    simp only [insDesc]
    split
    · rename_i hlt
      refine List.Pairwise.cons ?_ h
      intro b hb
      rcases List.mem_cons.mp hb with rfl | hb2
      · exact le_of_lt hlt
      · exact le_trans ((List.pairwise_cons.mp h).1 b hb2) (le_of_lt hlt)
    · rename_i hnlt
      obtain ⟨hy, hys⟩ := List.pairwise_cons.mp h
      refine List.Pairwise.cons ?_ (ih hys)
      intro b hb
      rcases List.mem_cons.mp ((insDesc_perm x ys).mem_iff.mp hb) with rfl | hb2
      · exact not_lt.mp hnlt
      · exact hy b hb2

theorem sortDesc_pairwise (l : List (List Nat × Nat)) :
    List.Pairwise (fun a b => b.2 ≤ a.2) (sortDescByCount l) := by
  induction l with
  | nil => simp [sortDescByCount]
  | cons x xs ih => exact insDesc_pairwise x _ ih

theorem filter_gt_lt (l : List (List Nat × Nat)) (n : Nat) (p : List Nat × Nat) :
    List.Pairwise (fun a b => b.2 ≤ a.2) l → p ∈ l.take n →
    (l.filter (fun q => decide (p.2 < q.2))).length < n := by
  induction l generalizing n with
  | nil => intro _ hmem; simp at hmem
  | cons x t ih =>
    intro hp hmem
    cases n with
    | zero => simp at hmem
    | succ m =>
      obtain ⟨hx, ht⟩ := List.pairwise_cons.mp hp
      simp only [List.take_succ_cons] at hmem
      rcases List.mem_cons.mp hmem with rfl | hm2
      · have hnil : (p :: t).filter (fun q => decide (p.2 < q.2)) = [] := by
          apply List.filter_eq_nil_iff.mpr
          intro a ha
          rcases List.mem_cons.mp ha with rfl | ha2
          · simp
          · simpa using not_lt.mpr (hx a ha2)
        simp [hnil]
      · have ihh := ih m ht hm2
        simp only [List.filter_cons]
        split
        · simp only [List.length_cons]; omega
        · omega

theorem mem_of_mem_mostCommon (p : List Nat × Nat) (n : Nat) (items : List (List Nat × Nat))
    (h : p ∈ mostCommon n items) : p ∈ items :=
  (sortDesc_perm items).mem_iff.mp (List.take_subset n _ h)

end PV

namespace PV

/-- Claim C7: the proper-noun frequency heuristic scores each surviving
`most_common(30)` candidate as `2×frequency + pattern_bonus + hint_bonus −
plural_penalty` (filename hit +10, title hit +4, trailing `s` −2, pattern
bonuses for "X was created" / "At X," / "X is") and returns a
highest-scoring survivor; on the text `"Acme was created in 2015"`
repeated three times (and no hints) it selects `"Acme"`. -/
theorem C7_freq_scoring :
    companyNameFromProperNounFrequency acmeText [] [] = S (r"Acme")
    ∧ ∀ early fn tl : List Nat, freqHeuristicOptimalOn early fn tl := by
  constructor
  · decide
  · intro early fn tl
    unfold freqHeuristicOptimalOn
    by_cases h1 : early.isEmpty = true
    · left; simp [companyNameFromProperNounFrequency, h1]
    · replace h1 : early.isEmpty = false := by simpa using h1
      by_cases h2 : (findTokens early).isEmpty = true
      · left; simp [companyNameFromProperNounFrequency, h1, h2]
      · replace h2 : (findTokens early).isEmpty = false := by simpa using h2
        have hred : companyNameFromProperNounFrequency early fn tl
            = (bestLoop early (mapLower fn) (mapLower tl)
                (mostCommon 30 (counterItems (findTokens early)))
                ([], -(1000000000 : Int))).1 := by
          simp [companyNameFromProperNounFrequency, h1, h2]
        obtain ⟨hm, _, hmax⟩ := bestLoop_result early (mapLower fn) (mapLower tl)
          (mostCommon 30 (counterItems (findTokens early))) ([], -(1000000000 : Int))
        rcases hm with hacc | ⟨p, hp, hps, heq⟩
        · left; rw [hred, hacc]
        · right
          refine ⟨p.2, ?_, ?_, ?_⟩
          · rw [hred, heq]
            simpa [freqConsidered] using hp
          · rw [hred, heq]
            exact hps
          · intro q hq hqs
            rw [hred, heq]
            have := hmax q (by simpa [freqConsidered] using hq) hqs
            rw [heq] at this
            exact this

/-- Claim C10: the frequency heuristic can only return the empty string or
one of the 30 most frequent tokens — a token with 30 or more distinct
strictly-more-frequent tokens is never selected, whatever its bonuses. -/
theorem C10_top30_only (early fn tl : List Nat) : freqTop30Property early fn tl := by
  unfold freqTop30Property
  by_cases h1 : early.isEmpty = true
  · left; simp [companyNameFromProperNounFrequency, h1]
  · replace h1 : early.isEmpty = false := by simpa using h1
    by_cases h2 : (findTokens early).isEmpty = true
    · left; simp [companyNameFromProperNounFrequency, h1, h2]
    · replace h2 : (findTokens early).isEmpty = false := by simpa using h2
      have hred : companyNameFromProperNounFrequency early fn tl
          = (bestLoop early (mapLower fn) (mapLower tl)
              (mostCommon 30 (counterItems (findTokens early)))
              ([], -(1000000000 : Int))).1 := by
        simp [companyNameFromProperNounFrequency, h1, h2]
      obtain ⟨hm, _, _⟩ := bestLoop_result early (mapLower fn) (mapLower tl)
        (mostCommon 30 (counterItems (findTokens early))) ([], -(1000000000 : Int))
      rcases hm with hacc | ⟨p, hp, _, heq⟩
      · left; rw [hred, hacc]
      · right
        refine ⟨p.2, ?_, ?_⟩
        · rw [hred, heq]
          simpa using mem_of_mem_mostCommon p 30 (counterItems (findTokens early)) hp
        · have hpair := sortDesc_pairwise (counterItems (findTokens early))
          have hlt := filter_gt_lt (sortDescByCount (counterItems (findTokens early))) 30 p hpair hp
          have hperm := sortDesc_perm (counterItems (findTokens early))
          have hcnt : ((counterItems (findTokens early)).filter (fun q => decide (p.2 < q.2))).length
              = ((sortDescByCount (counterItems (findTokens early))).filter (fun q => decide (p.2 < q.2))).length := by
            rw [← List.countP_eq_length_filter, ← List.countP_eq_length_filter]
            exact (hperm.countP_eq _).symm
          omega

end PV

namespace PV

/-! ## Claim C6: generic phrases are never returned -/

theorem isWS_toLowerN (n : Nat) : isWS (toLowerN n) = isWS n := by
  unfold toLowerN
  split
  · rename_i h
    simp only [Bool.and_eq_true, decide_eq_true_eq] at h
    have e1 : isWS (n + 32) = false := by
      simp only [isWS, Bool.or_eq_false_iff, beq_eq_false_iff_ne, ne_eq]
      omega
    have e2 : isWS n = false := by
      simp only [isWS, Bool.or_eq_false_iff, beq_eq_false_iff_ne, ne_eq]
      omega
    rw [e1, e2]
  · rfl

theorem toLowerN_toUpperN (n : Nat) : toLowerN (toUpperN n) = toLowerN n := by
  simp only [toLowerN, toUpperN]
  repeat' split
  all_goals simp_all
  all_goals omega

theorem mapLower_mapUpper (s : List Nat) : mapLower (mapUpper s) = mapLower s := by
  unfold mapLower mapUpper
  rw [List.map_map]
  apply List.map_congr_left
  intro a _
  exact toLowerN_toUpperN a

theorem mapLower_collapseRuns (b : Bool) (s : List Nat) :
    collapseRuns isWS b (mapLower s) = mapLower (collapseRuns isWS b s) := by
  induction s generalizing b with
  | nil => rfl
  | cons c rest ih =>
    simp only [mapLower, List.map_cons, collapseRuns, isWS_toLowerN]
    by_cases h : isWS c = true
    · simp only [h, if_true]
      cases b
      · simp only [Bool.false_eq_true, if_false, List.map_cons]
        rw [show toLowerN 32 = 32 from rfl]
        exact congrArg (32 :: ·) (ih true)
      · simp only [if_true]
        exact ih true
    · replace h : isWS c = false := by simpa using h
      simp only [h, Bool.false_eq_true, if_false, List.map_cons]
      exact congrArg (toLowerN c :: ·) (ih false)

theorem mapLower_dropWhileWS (s : List Nat) :
    (mapLower s).dropWhile isWS = mapLower (s.dropWhile isWS) := by
  induction s with
  | nil => rfl
  | cons c rest ih =>
    simp only [mapLower, List.map_cons, List.dropWhile_cons, isWS_toLowerN]
    by_cases h : isWS c = true
    · simp only [h, if_true]
      exact ih
    · replace h : isWS c = false := by simpa using h
      simp [h, mapLower]

theorem mapLower_pyStrip (s : List Nat) : pyStrip (mapLower s) = mapLower (pyStrip s) := by
  unfold pyStrip stripStart stripEnd
  rw [mapLower_dropWhileWS]
  have hrev : ∀ t : List Nat, (mapLower t).reverse = mapLower t.reverse := by
    intro t
    unfold mapLower
    exact (List.map_reverse _ _).symm
  rw [hrev, mapLower_dropWhileWS, hrev]

theorem collapseRuns_append (P : Nat → Bool) (b : Bool) (l m : List Nat) :
    collapseRuns P b (l ++ m) = collapseRuns P b l ++ collapseRuns P (endsInRun P b l) m := by
  induction l generalizing b with
  | nil => rfl
  | cons c rest ih =>
    simp only [List.cons_append, collapseRuns, endsInRun]
    by_cases h : P c = true
    · simp only [h, if_true]
      cases b
      · simp only [Bool.false_eq_true, if_false, List.cons_append]
        exact congrArg (32 :: ·) (ih true)
      · simp only [if_true]
        exact ih true
    · replace h : P c = false := by simpa using h
      simp only [h, Bool.false_eq_true, if_false, List.cons_append]
      exact congrArg (c :: ·) (ih false)

theorem canonChk_of_true (p : List Nat) (b : Bool) (h : canonChk true p = true) :
    canonChk b p = true := by
  cases p with
  | nil => rfl
  | cons c rest =>
    simp only [canonChk] at h ⊢
    by_cases hc : isWS c = true
    · simp [hc] at h
    · replace hc : isWS c = false := by simpa using hc
      simp only [hc, Bool.false_eq_true, if_false] at h ⊢
      exact h

theorem canonChk_head (p : List Nat) (h : canonChk true p = true) :
    p.head?.all (fun c => !isWS c) = true := by
  cases p with
  | nil => rfl
  | cons c rest =>
    simp only [canonChk] at h
    by_cases hc : isWS c = true
    · simp [hc] at h
    · replace hc : isWS c = false := by simpa using hc
      simp [hc]

theorem collapseRuns_canon (p : List Nat) (b : Bool) (h : canonChk b p = true) :
    collapseRuns isWS b p = p := by
  induction p generalizing b with
  | nil => rfl
  | cons c rest ih =>
    simp only [canonChk] at h
    simp only [collapseRuns]
    by_cases hc : isWS c = true
    · simp only [hc, if_true] at h ⊢
      simp only [Bool.and_eq_true, beq_iff_eq, Bool.not_eq_true'] at h
      obtain ⟨⟨hc32, hbf⟩, hcr⟩ := h
      subst hbf
      simp only [Bool.false_eq_true, if_false]
      rw [ih true hcr, hc32]
    · replace hc : isWS c = false := by simpa using hc
      simp only [hc, Bool.false_eq_true, if_false] at h ⊢
      rw [ih false h]

theorem containsSub_iff (hay pat : List Nat) :
    containsSub hay pat = true ↔ pat <:+: hay := by
  induction hay with
  | nil =>
    simp only [containsSub, List.isEmpty_iff]
    constructor
    · intro h; subst h; exact List.nil_infix
    · intro h
      have := List.eq_nil_of_infix_nil h
      exact this
  | cons c rest ih =>
    simp only [containsSub, Bool.or_eq_true, ih]
    rw [ List.isPrefixOf_iff_prefix]
    constructor
    · rintro (h | h)
      · exact h.isInfix
      · exact List.infix_cons h
    · intro h
      rcases List.infix_cons_iff.mp h with h | h
      · exact Or.inl h
      · exact Or.inr h

theorem dropWhileWS_keeps (p z : List Nat) (hh : p.head?.all (fun c => !isWS c) = true)
    (h : p <:+: z) : p <:+: z.dropWhile isWS := by
  cases p with
  | nil => exact List.nil_infix
  | cons c p2 =>
    have hc : isWS c = false := by simpa using hh
    obtain ⟨u, v, hz⟩ := h
    rw [← hz, List.append_assoc, List.dropWhile_append]
    split
    · rw [List.cons_append, List.dropWhile_cons, hc]
      simp only [Bool.false_eq_true, if_false]
      exact ⟨[], v, by simp⟩
    · exact ⟨List.dropWhile isWS u, v, by rw [List.append_assoc]⟩

theorem pyStrip_keeps (p z : List Nat)
    (hh : p.head?.all (fun c => !isWS c) = true)
    (hl : p.getLast?.all (fun c => !isWS c) = true)
    (h : p <:+: z) : p <:+: pyStrip z := by
  unfold pyStrip stripStart stripEnd
  have h1 : p <:+: z.dropWhile isWS := dropWhileWS_keeps p z hh h
  have h2 : p.reverse <:+: (z.dropWhile isWS).reverse := List.reverse_infix.mpr h1
  have h3 : p.reverse <:+: ((z.dropWhile isWS).reverse).dropWhile isWS := by
    apply dropWhileWS_keeps _ _ ?_ h2
    rw [List.head?_reverse]
    exact hl
  have h4 : p <:+: (((z.dropWhile isWS).reverse).dropWhile isWS).reverse := by
    rw [← List.reverse_infix, List.reverse_reverse]
    exact h3
  exact h4

theorem collapse_keeps (p z : List Nat) (hcanon : canonChk true p = true) (h : p <:+: z) :
    p <:+: collapseRuns isWS false z := by
  obtain ⟨u, v, hz⟩ := h
  rw [← hz, List.append_assoc, collapseRuns_append, collapseRuns_append,
    collapseRuns_canon p _ (canonChk_of_true p _ hcanon)]
  exact ⟨_, _, by rw [List.append_assoc]⟩

theorem genPipeline_keeps (p z : List Nat) (hp : canonicalPat p = true) (h : p <:+: z) :
    p <:+: pyStrip (collapseRuns isWS false z) := by
  have hchk : canonChk true p = true := by
    simp only [canonicalPat, Bool.and_eq_true] at hp
    exact hp.1.2
  have hlast : p.getLast?.all (fun c => !isWS c) = true := by
    simp only [canonicalPat, Bool.and_eq_true] at hp
    have := hp.2
    cases hgl : p.getLast? with
    | none => rfl
    | some c =>
      rw [hgl] at this
      simpa using this
  exact pyStrip_keeps p _ (canonChk_head p hchk) hlast (collapse_keeps p z hchk h)

end PV

namespace PV

theorem not_contains_of_valid (c early : List Nat) (k : Nat)
    (h : isValidCompanyCandidate c early k = true)
    (sub : List Nat) (hmem : sub ∈ GENERIC_SUBSTRINGS) (hcanon : canonicalPat sub = true) :
    containsSub (mapLower c) sub = false := by
  have hg := not_generic_of_valid c early k h
  by_contra hcc
  replace hcc : containsSub (mapLower c) sub = true := by simpa using hcc
  have hchk : canonChk true sub = true := by
    simp only [canonicalPat, Bool.and_eq_true] at hcanon
    exact hcanon.1.2
  have hlast : sub.getLast?.all (fun ch => !isWS ch) = true := by
    simp only [canonicalPat, Bool.and_eq_true] at hcanon
    have := hcanon.2
    cases hgl : sub.getLast? with
    | none => rfl
    | some ch =>
      rw [hgl] at this
      simpa using this
  have h1 : sub <:+: mapLower c := (containsSub_iff _ _).mp hcc
  have h2 : sub <:+: mapLower (pyStrip c) := by
    rw [← mapLower_pyStrip]
    exact pyStrip_keeps sub _ (canonChk_head sub hchk) hlast h1
  have h3 : sub <:+: mapLower (pyStrip (collapseRuns isWS false (pyStrip c))) := by
    rw [← mapLower_pyStrip, ← mapLower_collapseRuns]
    exact genPipeline_keeps sub _ (by simpa [canonicalPat] using hcanon) h2
  have hgen : isGenericPhrase (pyStrip c) = true := by
    unfold isGenericPhrase
    by_cases hne : (pyStrip c).isEmpty = true
    · simp [hne]
    · replace hne : (pyStrip c).isEmpty = false := by simpa using hne
      simp only [hne, Bool.false_eq_true, if_false, Bool.or_eq_true]
      right
      apply List.any_eq_true.mpr
      exact ⟨sub, hmem, (containsSub_iff _ _).mpr h3⟩
  rw [hgen] at hg
  exact absurd hg (by simp)

theorem C6_facts_of_valid (c early : List Nat) (k : Nat)
    (h : isValidCompanyCandidate c early k = true) :
    mapUpper c ≠ S (r"INVESTOR DECK") ∧ mapUpper c ≠ S (r"CONFIDENTIAL")
    ∧ containsSub (mapLower c) (S (r"confidential")) = false
    ∧ containsSub (mapLower c) (S (r"pitch deck")) = false := by
  refine ⟨?_, ?_,
    not_contains_of_valid c early k h _ (by decide) (by decide),
    not_contains_of_valid c early k h _ (by decide) (by decide)⟩
  · intro he
    have hl : mapLower c = S (r"investor deck") := by
      rw [← mapLower_mapUpper, he]
      decide
    have hcon : containsSub (mapLower c) (S (r"investor")) = true := by
      rw [hl]
      decide
    rw [not_contains_of_valid c early k h _ (by decide) (by decide)] at hcon
    exact absurd hcon (by simp)
  · intro he
    have hl : mapLower c = S (r"confidential") := by
      rw [← mapLower_mapUpper, he]
      decide
    have hcon : containsSub (mapLower c) (S (r"confidential")) = true := by
      rw [hl]
      decide
    rw [not_contains_of_valid c early k h _ (by decide) (by decide)] at hcon
    exact absurd hcon (by simp)

/-- Claim C6: the string returned by company-name resolution is never a
generic cover phrase: it never equals `"INVESTOR DECK"` or
`"CONFIDENTIAL"` case-insensitively, and never contains the blocklisted
substrings `"confidential"` or `"pitch deck"` (case-insensitively), no
matter how often these occur in the document. -/
theorem C6_no_generic_result (d : Deck) (llm : Option (Option (List Nat))) :
    mapUpper (extractCompanyName d llm) ≠ S (r"INVESTOR DECK")
    ∧ mapUpper (extractCompanyName d llm) ≠ S (r"CONFIDENTIAL")
    ∧ containsSub (mapLower (extractCompanyName d llm)) (S (r"confidential")) = false
    ∧ containsSub (mapLower (extractCompanyName d llm)) (S (r"pitch deck")) = false := by
  rw [extract_eq_firstPassing]
  cases hfp : firstPassingCandidate d llm with
  | none =>
    simp only [Option.getD_none]
    exact ⟨by decide, by decide, by decide, by decide⟩
  | some c =>
    simp only [Option.getD_some]
    obtain ⟨k, hk⟩ := firstPassing_valid d llm c hfp
    exact C6_facts_of_valid c _ k hk

end PV

namespace PV

/-! ## Claims C2 and C8: the fallback retry loop and rate limiter -/

theorem recTime_cons_zero (x : ARec) (l : List ARec) : recTime (x :: l) 0 = x.time := rfl

theorem recTime_cons_succ (x : ARec) (l : List ARec) (i : Nat) :
    recTime (x :: l) (i + 1) = recTime l i := rfl

theorem recReset_cons_zero (x : ARec) (l : List ARec) : recReset (x :: l) 0 = x.resetAfter := rfl

theorem recReset_cons_succ (x : ARec) (l : List ARec) (i : Nat) :
    recReset (x :: l) (i + 1) = recReset l i := rfl

theorem ddgGo_head_time (rc : Nat) (oracle : Nat → DOutcome) (fuel a : Nat) (st : DState)
    (h : (ddgGo rc oracle fuel a st).1 ≠ []) :
    st.clock ≤ recTime (ddgGo rc oracle fuel a st).1 0 := by
  cases fuel with
  | zero => simp [ddgGo] at h
  | succ fuel =>
    have h2 : st.clock ≤ max st.clock (st.last + minDdgDelay) := le_max_left _ _
    cases ho : oracle a with
    | success d =>
      simp only [ddgGo, ho, recTime]
      split <;> (simp; try omega)
    | rateLimited d =>
      simp only [ddgGo, ho]
      by_cases ha : a < rc
      · simp only [ha, if_true, recTime]
        split <;> (simp; try omega)
      · simp only [ha, if_false, recTime]
        split <;> (simp; try omega)
    | connIssue d =>
      simp only [ddgGo, ho]
      by_cases ha : a < rc
      · simp only [ha, if_true, recTime]
        split <;> (simp; try omega)
      · simp only [ha, if_false, recTime]
        split <;> (simp; try omega)
    | fatal d =>
      simp only [ddgGo, ho, recTime]
      split <;> (simp; try omega)

end PV

namespace PV

theorem ddgGo_invariants (rc : Nat) (oracle : Nat → DOutcome) (fuel : Nat) :
    ∀ (a : Nat) (st : DState), oracleNonneg oracle → st.last ≤ st.clock →
    st.last ≤ (ddgGo rc oracle fuel a st).2.1.last
    ∧ (ddgGo rc oracle fuel a st).2.1.last ≤ (ddgGo rc oracle fuel a st).2.1.clock
    ∧ (∀ r ∈ (ddgGo rc oracle fuel a st).1, st.last + minDdgDelay ≤ r.time)
    ∧ (∀ r ∈ (ddgGo rc oracle fuel a st).1, r.succ = true →
        r.time ≤ (ddgGo rc oracle fuel a st).2.1.last)
    ∧ List.Pairwise (fun x y => x.succ = true → x.time + minDdgDelay ≤ y.time)
        (ddgGo rc oracle fuel a st).1 := by
  induction fuel with
  | zero =>
    intro a st _ hwf
    simp [ddgGo, hwf]
  | succ fuel ih =>
    intro a st hnn hwf
    have hmax1 : st.last + minDdgDelay ≤ max st.clock (st.last + minDdgDelay) := le_max_right _ _
    have hmax2 : st.clock ≤ max st.clock (st.last + minDdgDelay) := le_max_left _ _
    obtain ⟨c2, hc2eq, hc2ge⟩ :
        ∃ c2, (if 0 < a then max st.clock (st.last + minDdgDelay) + 30
                else max st.clock (st.last + minDdgDelay)) = c2
          ∧ max st.clock (st.last + minDdgDelay) ≤ c2 := by
      split
      · exact ⟨_, rfl, by omega⟩
      · exact ⟨_, rfl, le_refl _⟩
    have hd := hnn a
    cases ho : oracle a with
    | success d =>
      rw [ho] at hd
      simp only [DOutcome.dur] at hd
      simp only [ddgGo, ho, hc2eq]
      refine ⟨by omega, by omega, ?_, ?_, ?_⟩
      · intro r hr
        simp only [List.mem_singleton] at hr
        subst hr
        simp
        omega
      · intro r hr _
        simp only [List.mem_singleton] at hr
        subst hr
        simp
        omega
      · simp
    | rateLimited d =>
      rw [ho] at hd
      simp only [DOutcome.dur] at hd
      simp only [ddgGo, ho, hc2eq]
      by_cases ha : a < rc
      · simp only [ha, if_true]
        have hwf1 : (DState.mk (c2 + d + ((a : Int) + 1) * 50) st.last).last
            ≤ (DState.mk (c2 + d + ((a : Int) + 1) * 50) st.last).clock := by
          simp
          omega
        obtain ⟨g1, g2, g3, g4, g5⟩ := ih (a + 1) ⟨c2 + d + ((a : Int) + 1) * 50, st.last⟩ hnn hwf1
        refine ⟨by simpa using g1, g2, ?_, ?_, ?_⟩
        · intro r hr
          rcases List.mem_cons.mp hr with rfl | hr2
          · simp
            omega
          · simpa using g3 r hr2
        · intro r hr hs
          rcases List.mem_cons.mp hr with rfl | hr2
          · simp at hs
          · exact g4 r hr2 hs
        · refine List.Pairwise.cons ?_ g5
          intro y _ hs
          simp at hs
      · simp only [ha, if_false]
        refine ⟨le_refl _, by omega, ?_, ?_, ?_⟩
        · intro r hr
          simp only [List.mem_singleton] at hr
          subst hr
          simp
          omega
        · intro r hr hs
          simp only [List.mem_singleton] at hr
          subst hr
          simp at hs
        · simp
    | connIssue d =>
      rw [ho] at hd
      simp only [DOutcome.dur] at hd
      simp only [ddgGo, ho, hc2eq]
      by_cases ha : a < rc
      · simp only [ha, if_true]
        have hwf1 : (DState.mk (c2 + d + ((a : Int) + 1) * 30) st.last).last
            ≤ (DState.mk (c2 + d + ((a : Int) + 1) * 30) st.last).clock := by
          simp
          omega
        obtain ⟨g1, g2, g3, g4, g5⟩ := ih (a + 1) ⟨c2 + d + ((a : Int) + 1) * 30, st.last⟩ hnn hwf1
        refine ⟨by simpa using g1, g2, ?_, ?_, ?_⟩
        · intro r hr
          rcases List.mem_cons.mp hr with rfl | hr2
          · simp
            omega
          · simpa using g3 r hr2
        · intro r hr hs
          rcases List.mem_cons.mp hr with rfl | hr2
          · simp at hs
          · exact g4 r hr2 hs
        · refine List.Pairwise.cons ?_ g5
          intro y _ hs
          simp at hs
      · simp only [ha, if_false]
        refine ⟨le_refl _, by omega, ?_, ?_, ?_⟩
        · intro r hr
          simp only [List.mem_singleton] at hr
          subst hr
          simp
          omega
        · intro r hr hs
          simp only [List.mem_singleton] at hr
          subst hr
          simp at hs
        · simp
    | fatal d =>
      rw [ho] at hd
      simp only [DOutcome.dur] at hd
      simp only [ddgGo, ho, hc2eq]
      refine ⟨le_refl _, by omega, ?_, ?_, ?_⟩
      · intro r hr
        simp only [List.mem_singleton] at hr
        subst hr
        simp
        omega
      · intro r hr hs
        simp only [List.mem_singleton] at hr
        subst hr
        simp at hs
      · simp

end PV

namespace PV

theorem runSeq_invariants (rc : Nat) (runs : List (Int × (Nat → DOutcome))) :
    ∀ st : DState, runsWF runs → st.last ≤ st.clock →
    (∀ r ∈ runSeq rc st runs, st.last + minDdgDelay ≤ r.time)
    ∧ List.Pairwise (fun x y => x.succ = true → x.time + minDdgDelay ≤ y.time)
        (runSeq rc st runs) := by
  induction runs with
  | nil =>
    intro st _ _
    exact ⟨by simp [runSeq], by simp [runSeq]⟩
  | cons run rest ih =>
    intro st hwf hst
    obtain ⟨gap, oracle⟩ := run
    have hhead := hwf (gap, oracle) (by simp)
    have hgap : 0 ≤ gap := hhead.1
    have hnn : oracleNonneg oracle := hhead.2
    have hrest : runsWF rest := fun r hr => hwf r (by simp [hr])
    have hst1 : (DState.mk (st.clock + gap) st.last).last
        ≤ (DState.mk (st.clock + gap) st.last).clock := by
      simp
      omega
    obtain ⟨g1, g2, g3, g4, g5⟩ :=
      ddgGo_invariants rc oracle (rc + 1) 0 ⟨st.clock + gap, st.last⟩ hnn hst1
    obtain ⟨t1, t2⟩ := ih (ddgGo rc oracle (rc + 1) 0 ⟨st.clock + gap, st.last⟩).2.1 hrest g2
    have hrun : runSeq rc st ((gap, oracle) :: rest)
        = (ddgGo rc oracle (rc + 1) 0 ⟨st.clock + gap, st.last⟩).1
          ++ runSeq rc (ddgGo rc oracle (rc + 1) 0 ⟨st.clock + gap, st.last⟩).2.1 rest := rfl
    rw [hrun]
    have hlast : st.last ≤ (ddgGo rc oracle (rc + 1) 0 ⟨st.clock + gap, st.last⟩).2.1.last := by
      simpa using g1
    constructor
    · intro r hr
      rcases List.mem_append.mp hr with hr1 | hr2
      · simpa using g3 r hr1
      · have := t1 r hr2
        omega
    · rw [List.pairwise_append]
      refine ⟨g5, t2, ?_⟩
      intro x hx y hy hs
      have hx2 := g4 x hx hs
      have hy2 := t1 y hy
      omega

/-- Counterexample to claim C2 as stated: a failed fallback call does not
update the class-level `_last_ddg_search_time`, so the next search can be
issued immediately — here two calls are both issued at clock 100, less
than the 2.5 s minimum interval apart. -/
theorem C2_counterexample : ¬ minGapRespected (runSeq 2 ⟨100, 0⟩ c2Runs) := by
  simp only [minGapRespected, minDdgDelay]
  decide

/-- Claim C2 (amended): in any single-threaded sequence of fallback
searches (non-negative caller gaps and provider-call durations), every
issued fallback call is at least the configured minimum interval (2.5 s)
after every earlier *successful* fallback call; calls that follow only
failed calls may be issued sooner, because only a successful call updates
the shared `_last_ddg_search_time`. -/
theorem C2_min_interval_after_success (rc : Nat) (st : DState)
    (runs : List (Int × (Nat → DOutcome)))
    (hwf : runsWF runs) (hst : st.last ≤ st.clock) :
    List.Pairwise (fun x y => x.succ = true → x.time + minDdgDelay ≤ y.time)
      (runSeq rc st runs) :=
  (runSeq_invariants rc runs st hwf hst).2

/-- Witness for C2's amended theorem: two successive successful searches
are issued exactly the minimum interval apart (100 and 125 tenths of a
second). -/
theorem C2_min_interval_after_success_witness :
    List.Pairwise (fun x y => x.succ = true → x.time + minDdgDelay ≤ y.time)
      (runSeq 2 ⟨100, 0⟩ c2OkRuns) :=
  C2_min_interval_after_success 2 ⟨100, 0⟩ c2OkRuns
    (by
      intro r hr
      have : r = ((0 : Int), okOracle) := by
        rcases List.mem_cons.mp hr with h | h
        · exact h
        · simpa using h
      subst this
      exact ⟨le_refl 0, fun n => le_refl 0⟩)
    (by decide)

end PV

namespace PV

theorem ddgGo_shape (rc : Nat) (oracle : Nat → DOutcome) (fuel : Nat) :
    ∀ (a0 : Nat) (st : DState),
    (ddgGo rc oracle fuel a0 st).1.length ≤ fuel
    ∧ (∀ i : Nat, i + 1 < (ddgGo rc oracle fuel a0 st).1.length →
        recTime (ddgGo rc oracle fuel a0 st).1 i + backoffLB (oracle (a0 + i)) (a0 + i)
            ≤ recTime (ddgGo rc oracle fuel a0 st).1 (i + 1)
        ∧ recReset (ddgGo rc oracle fuel a0 st).1 i = true)
    ∧ (∀ i : Nat, i < (ddgGo rc oracle fuel a0 st).1.length →
        isFatalOutcome (oracle (a0 + i)) = true →
        (ddgGo rc oracle fuel a0 st).1.length = i + 1
        ∧ (ddgGo rc oracle fuel a0 st).2.2 = false) := by
  induction fuel with
  | zero =>
    intro a0 st
    simp [ddgGo]
  | succ fuel ih =>
    intro a0 st
    cases ho : oracle a0 with
    | success d =>
      simp only [ddgGo, ho]
      refine ⟨by simp, ?_, ?_⟩
      · intro i hi
        simp at hi
      · intro i hi hf
        have hi0 : i = 0 := by simpa using hi
        subst hi0
        rw [show a0 + 0 = a0 from rfl, ho] at hf
        simp [isFatalOutcome] at hf
    | rateLimited d =>
      by_cases ha : a0 < rc
      · simp only [ddgGo, ho, ha, if_true]
        set st1 : DState :=
          ⟨(if 0 < a0 then max st.clock (st.last + minDdgDelay) + 30
              else max st.clock (st.last + minDdgDelay)) + d + ((a0 : Int) + 1) * 50,
            st.last⟩ with hst1
        obtain ⟨l1, l2, l3⟩ := ih (a0 + 1) st1
        refine ⟨by simpa using Nat.succ_le_succ l1, ?_, ?_⟩
        · intro i hi
          cases i with
          | zero =>
            have hne : (ddgGo rc oracle fuel (a0 + 1) st1).1 ≠ [] := by
              intro hnil
              rw [List.length_cons, hnil] at hi
              simp at hi
            have hhead := ddgGo_head_time rc oracle fuel (a0 + 1) st1 hne
            constructor
            · rw [recTime_cons_succ, recTime_cons_zero]
              rw [show a0 + 0 = a0 from rfl, ho]
              simp only [backoffLB]
              have hclock : st1.clock
                  = (if 0 < a0 then max st.clock (st.last + minDdgDelay) + 30
                      else max st.clock (st.last + minDdgDelay)) + d + ((a0 : Int) + 1) * 50 := rfl
              omega
            · rw [recReset_cons_zero]
          | succ j =>
            have hi2 : j + 1 < (ddgGo rc oracle fuel (a0 + 1) st1).1.length := by
              simpa using hi
            have hl := l2 j hi2
            constructor
            · rw [recTime_cons_succ, recTime_cons_succ,
                show a0 + (j + 1) = (a0 + 1) + j from by omega]
              exact hl.1
            · rw [recReset_cons_succ]
              exact hl.2
        · intro i hi hf
          cases i with
          | zero =>
            rw [show a0 + 0 = a0 from rfl, ho] at hf
            simp [isFatalOutcome] at hf
          | succ j =>
            have hj : j < (ddgGo rc oracle fuel (a0 + 1) st1).1.length := by simpa using hi
            have hf2 : isFatalOutcome (oracle ((a0 + 1) + j)) = true := by
              rw [show (a0 + 1) + j = a0 + (j + 1) from by omega]
              exact hf
            have hl := l3 j hj hf2
            exact ⟨by simp [hl.1], hl.2⟩
      · simp only [ddgGo, ho, ha, if_false]
        refine ⟨by simp, ?_, ?_⟩
        · intro i hi
          simp at hi
        · intro i hi hf
          have hi0 : i = 0 := by simpa using hi
          subst hi0
          rw [show a0 + 0 = a0 from rfl, ho] at hf
          simp [isFatalOutcome] at hf
    | connIssue d =>
      by_cases ha : a0 < rc
      · simp only [ddgGo, ho, ha, if_true]
        set st1 : DState :=
          ⟨(if 0 < a0 then max st.clock (st.last + minDdgDelay) + 30
              else max st.clock (st.last + minDdgDelay)) + d + ((a0 : Int) + 1) * 30,
            st.last⟩ with hst1
        obtain ⟨l1, l2, l3⟩ := ih (a0 + 1) st1
        refine ⟨by simpa using Nat.succ_le_succ l1, ?_, ?_⟩
        · intro i hi
          cases i with
          | zero =>
            have hne : (ddgGo rc oracle fuel (a0 + 1) st1).1 ≠ [] := by
              intro hnil
              rw [List.length_cons, hnil] at hi
              simp at hi
            have hhead := ddgGo_head_time rc oracle fuel (a0 + 1) st1 hne
            constructor
            · rw [recTime_cons_succ, recTime_cons_zero]
              rw [show a0 + 0 = a0 from rfl, ho]
              simp only [backoffLB]
              have hclock : st1.clock
                  = (if 0 < a0 then max st.clock (st.last + minDdgDelay) + 30
                      else max st.clock (st.last + minDdgDelay)) + d + ((a0 : Int) + 1) * 30 := rfl
              omega
            · rw [recReset_cons_zero]
          | succ j =>
            have hi2 : j + 1 < (ddgGo rc oracle fuel (a0 + 1) st1).1.length := by
              simpa using hi
            have hl := l2 j hi2
            constructor
            · rw [recTime_cons_succ, recTime_cons_succ,
                show a0 + (j + 1) = (a0 + 1) + j from by omega]
              exact hl.1
            · rw [recReset_cons_succ]
              exact hl.2
        · intro i hi hf
          cases i with
          | zero =>
            rw [show a0 + 0 = a0 from rfl, ho] at hf
            simp [isFatalOutcome] at hf
          | succ j =>
            have hj : j < (ddgGo rc oracle fuel (a0 + 1) st1).1.length := by simpa using hi
            have hf2 : isFatalOutcome (oracle ((a0 + 1) + j)) = true := by
              rw [show (a0 + 1) + j = a0 + (j + 1) from by omega]
              exact hf
            have hl := l3 j hj hf2
            exact ⟨by simp [hl.1], hl.2⟩
      · simp only [ddgGo, ho, ha, if_false]
        refine ⟨by simp, ?_, ?_⟩
        · intro i hi
          simp at hi
        · intro i hi hf
          have hi0 : i = 0 := by simpa using hi
          subst hi0
          rw [show a0 + 0 = a0 from rfl, ho] at hf
          simp [isFatalOutcome] at hf
    | fatal d =>
      simp only [ddgGo, ho]
      refine ⟨by simp, ?_, ?_⟩
      · intro i hi
        simp at hi
      · intro i hi hf
        have hi0 : i = 0 := by simpa using hi
        subst hi0
        constructor
        · simp
        · trivial

end PV

namespace PV

/-- Claim C8: a fallback search issues at most `retry_count + 1` provider
calls; whenever an attempt is followed by another, the next call is issued
only after the failed call's duration plus the increasing backoff —
`(attempt+1) × 5 s` for rate limits, `(attempt+1) × 3 s` for
timeout/connection errors — and the client handle is reset (a fresh handle
is obtained) in between; a non-transient failure ends the search
immediately with an empty result (no further calls). -/
theorem C8_retry_and_backoff (rc : Nat) (oracle : Nat → DOutcome) (st : DState) :
    (ddgSearch rc oracle st).1.length ≤ rc + 1
    ∧ (∀ a : Nat, a + 1 < (ddgSearch rc oracle st).1.length →
        recTime (ddgSearch rc oracle st).1 a + backoffLB (oracle a) a
            ≤ recTime (ddgSearch rc oracle st).1 (a + 1)
        ∧ recReset (ddgSearch rc oracle st).1 a = true)
    ∧ (∀ a : Nat, a < (ddgSearch rc oracle st).1.length → isFatalOutcome (oracle a) = true →
        (ddgSearch rc oracle st).1.length = a + 1 ∧ (ddgSearch rc oracle st).2.2 = false) := by
  obtain ⟨l1, l2, l3⟩ := ddgGo_shape rc oracle (rc + 1) 0 st
  refine ⟨l1, ?_, ?_⟩
  · intro a ha
    have h := l2 a ha
    simpa using h
  · intro a ha hf
    have h := l3 a ha (by simpa using hf)
    simpa using h

/-- Witness for C8: with one retry allowed, a rate-limited first attempt
is retried at least 5 s later after a client reset (issue times 25 and
105 tenths of a second), and a non-transient failure issues exactly one
call and returns empty. -/
theorem C8_retry_and_backoff_witness :
    (recTime (ddgSearch 1 rlThenOkOracle ⟨0, 0⟩).1 0 + backoffLB (rlThenOkOracle 0) 0
        ≤ recTime (ddgSearch 1 rlThenOkOracle ⟨0, 0⟩).1 1
      ∧ recReset (ddgSearch 1 rlThenOkOracle ⟨0, 0⟩).1 0 = true)
    ∧ ((ddgSearch 1 fatalOracle ⟨0, 0⟩).1.length = 1
      ∧ (ddgSearch 1 fatalOracle ⟨0, 0⟩).2.2 = false) :=
  ⟨(C8_retry_and_backoff 1 rlThenOkOracle ⟨0, 0⟩).2.1 0 (by decide),
   (C8_retry_and_backoff 1 fatalOracle ⟨0, 0⟩).2.2 0 (by decide) (by decide)⟩

end PV
